import Mathlib

/-!
# The in-memory session provider

A shallow embedding of `providers/memory/memory.go` (package `memory`) and the
properties of its recency list and session table, together with `Register` of
`session.go` (package `session`).

Modelling conventions.

* Go pointers are addresses (`Ptr`) into an explicit object memory
  (`Provider.heap`).  `SessionInit` allocates one `SessionStore` and one
  `list.Element` whose `Value` is that `SessionStore`; `Value` is never
  reassigned, so one address stands for the element and for the session it
  wraps.  A session handle (`session.Session`) is the address of its
  `SessionStore`.
* A Go `map` is the function that a lookup computes, into `Option`.  On the
  `sessions` map, whose keys are strings, `m[k] = v` and `delete(m, k)` are
  `Function.update`.  The keys of an attribute map are `interface{}` values
  (`Key`): besides the keys that are equal to themselves there are keys that
  no lookup finds (NaN) and keys on which every map operation panics
  (unhashable dynamic types); see `mapassign`, `mapaccess`, `mapdelete`.
* `container/list` is a Lean list of element addresses, front first.
* `time.Now()` is an argument of every operation that reads the clock.
* `log.Println` has no effect on the state and is left out.
* The state is sequential.  What the operations do to the mutex is embedded
  separately, as the sequence of lock calls and accesses of each operation.
-/

namespace Memory

/-! ## Values of the Go runtime -/

/-- An address of a heap object. -/
abbrev Ptr := Nat

/-- A `time.Time`, as nanoseconds since the Unix epoch. -/
abbrev Time := Int

/-- The method `Time.Unix`: whole seconds since the epoch (rounded down). -/
def Unix (t : Time) : Int := t / 1000000000

/-- Two's complement reduction of an integer to the range of `int64`. -/
def wrapInt64 (x : Int) : Int :=
  (x + 9223372036854775808) % 18446744073709551616 - 9223372036854775808

/-- The range of `int64`. -/
def inInt64 (x : Int) : Prop :=
  -9223372036854775808 ≤ x ∧ x < 9223372036854775808

instance (x : Int) : Decidable (inInt64 x) := by
  unfold inInt64; infer_instance

/-- Source: `type SessionError string`. -/
abbrev SessionError := String

/-- Source: `func (err SessionError) Error() string`. -/
def SessionError.Error (err : SessionError) : String := "Session Error: " ++ err

/-- Source: `var DoesNotExist = SessionError("Key does not exist ")`. -/
def DoesNotExist : SessionError := "Key does not exist "

/-! ## Maps with `interface{}` keys -/

/-- An `interface{}` value used as a map key.  `val k` is a key of a
comparable dynamic type that is equal to itself under `==`, and `val k`,
`val k1` are equal keys exactly when `k = k1`.  `nan` is a key that is not
equal to itself (a floating-point NaN, or a value that contains one).
`unhashable` is a key whose dynamic type is not comparable (a slice, a map, a
function, or a value that contains one). -/
inductive Key (K : Type) where
  | val (k : K)
  | nan
  | unhashable

/-- The key can be hashed: a map operation on it does not panic. -/
def Key.hashable {K : Type} : Key K → Bool
  | .unhashable => false
  | _ => true

/-- How a call ends: it returns a value, or it panics. -/
inductive Outcome (α : Type) where
  | returns (a : α)
  | panics
  deriving DecidableEq

/-- The assignment `m[key] = w` of the Go runtime.  An entry written under a
NaN key is found by no lookup, so the function that lookups compute is the one
it was; hashing an unhashable key panics (`runtime error: hash of unhashable
type`). -/
def mapassign {K W : Type} [DecidableEq K] (m : K → Option W) (key : Key K) (w : W) :
    Outcome (K → Option W) :=
  match key with
  | .val k => .returns (Function.update m k (some w))
  | .nan => .returns m
  | .unhashable => .panics

/-- The lookup `w, ok := m[key]` of the Go runtime: `some w` when `ok`.  A NaN
key is never found; hashing an unhashable key panics. -/
def mapaccess {K W : Type} (m : K → Option W) (key : Key K) : Outcome (Option W) :=
  match key with
  | .val k => .returns (m k)
  | .nan => .returns none
  | .unhashable => .panics

/-- The call `delete(m, key)` of the Go runtime.  A NaN key matches no entry;
hashing an unhashable key panics. -/
def mapdelete {K W : Type} [DecidableEq K] (m : K → Option W) (key : Key K) :
    Outcome (K → Option W) :=
  match key with
  | .val k => .returns (Function.update m k none)
  | .nan => .returns m
  | .unhashable => .panics

/-! ## `container/list` -/

/-- Method `(*List).PushFront`: the new element becomes the first one. -/
def PushFront (l : List Ptr) (e : Ptr) : List Ptr := e :: l

/-- Method `(*List).Back`: the last element, `nil` on the empty list. -/
def Back (l : List Ptr) : Option Ptr := l.getLast?

/-- Method `(*List).Remove`: unlinks `e` when it is an element of `l`, otherwise
leaves `l` alone. -/
def Remove (l : List Ptr) (e : Ptr) : List Ptr := l.erase e

/-- Method `(*List).MoveToFront`: when `e` is an element of `l` it becomes the first
one, otherwise `l` is left alone. -/
def MoveToFront (l : List Ptr) (e : Ptr) : List Ptr :=
  if e ∈ l then e :: l.erase e else l

/-! ## The data model -/

/-- Source: `type SessionStore struct`.  The attribute map `value` is given by
what a lookup finds under the keys `Key.val k`; a stored `interface{}` value is
`none` for `nil` and `some v` otherwise. -/
structure SessionStore (K V : Type) where
  /-- The session id. -/
  sid : String
  /-- The time of the last access. -/
  timeAccessed : Time
  /-- The attributes kept in the session. -/
  value : K → Option (Option V)

/-- Source: `type Provider struct`, together with the memory its pointers point into.
The mutex is not part of the sequential state. -/
structure Provider (K V : Type) where
  /-- The `SessionStore` objects by address. -/
  heap : Ptr → SessionStore K V
  /-- The next address handed out by an allocation. -/
  next : Ptr
  /-- `sessions map[string]*list.Element`. -/
  sessions : String → Option Ptr
  /-- `list *list.List`, front (newest) first. -/
  list : List Ptr

section Operations

variable {K V : Type} [DecidableEq K]

/-- Source: `var pder = &Provider{list: list.New()}` after `init()` has made the
`sessions` map: no session, nothing allocated. -/
def pder : Provider K V where
  heap := fun _ => { sid := "", timeAccessed := 0, value := fun _ => none }
  next := 0
  sessions := fun _ => none
  list := []

/-- Source: `func (pder *Provider) SessionInit(sid string) (session.Session, error)`. -/
def SessionInit (sid : String) (now : Time) (p : Provider K V) :
    Provider K V × Ptr × Option SessionError :=
  let newsess : Ptr := p.next
  let heap1 := Function.update p.heap newsess
    { sid := sid, timeAccessed := now, value := fun _ => none }
  let list1 := PushFront p.list newsess
  let sessions1 := Function.update p.sessions sid (some newsess)
  ({ heap := heap1, next := p.next + 1, sessions := sessions1, list := list1 },
    newsess, none)

/-- Source: `func (pder *Provider) SessionRead(sid string) (session.Session, error)`.
The state is returned as it was received: the function assigns nothing. -/
def SessionRead (sid : String) (p : Provider K V) :
    Provider K V × Option Ptr × Option SessionError :=
  match p.sessions sid with
  | some element => (p, some element, none)
  | none => (p, none, some DoesNotExist)

/-- Source: `func (pder *Provider) SessionDestroy(sid string) error`. -/
def SessionDestroy (sid : String) (p : Provider K V) :
    Provider K V × Option SessionError :=
  match p.sessions sid with
  | some element =>
    let sessions1 := Function.update p.sessions sid none
    let list1 := Remove p.list element
    ({ p with sessions := sessions1, list := list1 }, none)
  | none => (p, none)

/-- The condition of the `if` in `SessionGC`:
`(timeAccessed.Unix() + maxlifetime) < time.Now().Unix()`, the sum being an
`int64` sum. -/
def expired (maxlifetime : Int) (now : Time) (s : SessionStore K V) : Prop :=
  wrapInt64 (Unix s.timeAccessed + maxlifetime) < Unix now

instance (maxlifetime : Int) (now : Time) (s : SessionStore K V) :
    Decidable (expired maxlifetime now s) := by
  unfold expired; infer_instance

/-- One pass through the body of the `for` loop of `SessionGC`: `none` is
`break`, `some p1` is the state at the end of the body. -/
def gcStep (maxlifetime : Int) (now : Time) (p : Provider K V) :
    Option (Provider K V) :=
  match Back p.list with
  | none => none
  | some element =>
    if expired maxlifetime now (p.heap element) then
      let list1 := Remove p.list element
      let sessions1 := Function.update p.sessions (p.heap element).sid none
      some { p with sessions := sessions1, list := list1 }
    else none

/-- The `for` loop of `SessionGC`, run for at most `fuel` passes; `clock i`
is what `time.Now()` returns in pass `i`.  The result is `none` when the
passes are used up before the loop has left through a `break`. -/
def gcLoop (maxlifetime : Int) (clock : Nat → Time) :
    Nat → Nat → Provider K V → Option (Provider K V)
  | 0, _, _ => none
  | fuel + 1, i, p =>
    match gcStep maxlifetime (clock i) p with
    | none => some p
    | some p1 => gcLoop maxlifetime clock fuel (i + 1) p1

/-- Source: `func (pder *Provider) SessionGC(maxlifetime int64)`.  One pass more than
the list has elements is enough for the loop to leave (`gcLoop_isSome`). -/
def SessionGC (maxlifetime : Int) (clock : Nat → Time) (p : Provider K V) :
    Provider K V :=
  (gcLoop maxlifetime clock (p.list.length + 1) 0 p).getD p

/-- Source: `func (pder *Provider) SessionUpdate(sid string) error`. -/
def SessionUpdate (sid : String) (now : Time) (p : Provider K V) :
    Provider K V × Option SessionError :=
  match p.sessions sid with
  | some element =>
    let heap1 := Function.update p.heap element
      { p.heap element with timeAccessed := now }
    let list1 := MoveToFront p.list element
    ({ p with heap := heap1, list := list1 }, none)
  | none => (p, none)

/-- Source: `func (st *SessionStore) Set(key, value interface{}) error`.  When
the assignment `st.value[key] = value` panics, nothing has been written and
`SessionUpdate` is not reached. -/
def SessionStore.Set (st : Ptr) (key : Key K) (value : Option V) (now : Time)
    (p : Provider K V) : Provider K V × Outcome (Option SessionError) :=
  match mapassign (p.heap st).value key value with
  | .panics => (p, .panics)
  | .returns value1 =>
    let p1 : Provider K V :=
      { p with heap := Function.update p.heap st { p.heap st with value := value1 } }
    let p2 := (SessionUpdate (p1.heap st).sid now p1).1
    (p2, .returns none)

/-- Source: `func (st *SessionStore) Get(key interface{}) interface{}`.  The
call of `SessionUpdate` comes first, so a lookup that panics leaves the store
touched. -/
def SessionStore.Get (st : Ptr) (key : Key K) (now : Time) (p : Provider K V) :
    Provider K V × Outcome (Option V) :=
  let p1 := (SessionUpdate (p.heap st).sid now p).1
  match mapaccess (p1.heap st).value key with
  | .panics => (p1, .panics)
  | .returns (some v) => (p1, .returns v)
  | .returns none => (p1, .returns none)

/-- Source: `func (st *SessionStore) Delete(key interface{}) error`.  When
`delete(st.value, key)` panics, nothing has been written and `SessionUpdate`
is not reached. -/
def SessionStore.Delete (st : Ptr) (key : Key K) (now : Time) (p : Provider K V) :
    Provider K V × Outcome (Option SessionError) :=
  match mapdelete (p.heap st).value key with
  | .panics => (p, .panics)
  | .returns value1 =>
    let p1 : Provider K V :=
      { p with heap := Function.update p.heap st { p.heap st with value := value1 } }
    let p2 := (SessionUpdate (p1.heap st).sid now p1).1
    (p2, .returns none)

/-- Source: `func (st *SessionStore) SessionID() string`. -/
def SessionStore.SessionID (st : Ptr) (p : Provider K V) : String :=
  (p.heap st).sid

end Operations

/-! ## Invariants of the store -/

section Invariants

variable {K V : Type}

/-- The bijection between the `sessions` map and the list: every key maps to
a list element that carries this key as its sid, every list element is the
map value of its own sid, and no two list elements carry the same sid. -/
def Bijection (p : Provider K V) : Prop :=
  (∀ sid e, p.sessions sid = some e → e ∈ p.list ∧ (p.heap e).sid = sid) ∧
  (∀ e ∈ p.list, p.sessions (p.heap e).sid = some e) ∧
  (p.list.map (fun e => (p.heap e).sid)).Nodup

/-- The `timeAccessed` of the list elements, front to back. -/
def times (p : Provider K V) : List Time :=
  p.list.map (fun e => (p.heap e).timeAccessed)

/-- The list is sorted by `timeAccessed`, non-increasing from front to back:
each element's `timeAccessed` is at least that of the element behind it. -/
def SortedByTime (p : Provider K V) : Prop :=
  List.Chain' (fun a b : Time => a ≥ b) (times p)

/-- Every list element has been allocated. -/
def Allocated (p : Provider K V) : Prop :=
  ∀ e ∈ p.list, e < p.next

/-- The state of the list when the clock has last been read as `t`: no
element is linked twice, every element has been allocated, the list is sorted
by `timeAccessed` and no `timeAccessed` is later than `t`. -/
def Stamped (t : Time) (p : Provider K V) : Prop :=
  p.list.Nodup ∧ Allocated p ∧ (times p).Pairwise (fun a b : Time => a ≥ b) ∧
    ∀ e ∈ p.list, (p.heap e).timeAccessed ≤ t

end Invariants

/-! ## Sequences of calls -/

section Calls

variable {K V : Type} [DecidableEq K]

/-- A call of one of the operations of the provider or of a session handle
`st`, with its arguments and with what `time.Now()` returns during the call. -/
inductive Call (K V : Type) where
  | Init (sid : String) (now : Time)
  | Read (sid : String)
  | Update (sid : String) (now : Time)
  | Destroy (sid : String)
  | GC (maxlifetime : Int) (clock : Nat → Time)
  | Set (st : Ptr) (key : Key K) (value : Option V) (now : Time)
  | Get (st : Ptr) (key : Key K) (now : Time)
  | Delete (st : Ptr) (key : Key K) (now : Time)

/-- The state after a call; after a call that panics, the state in which the
panic has left the store. -/
def exec (p : Provider K V) : Call K V → Provider K V
  | .Init sid now => (SessionInit sid now p).1
  | .Read sid => (SessionRead sid p).1
  | .Update sid now => (SessionUpdate sid now p).1
  | .Destroy sid => (SessionDestroy sid p).1
  | .GC maxlifetime clock => SessionGC maxlifetime clock p
  | .Set st key value now => (SessionStore.Set st key value now p).1
  | .Get st key now => (SessionStore.Get st key now p).1
  | .Delete st key now => (SessionStore.Delete st key now p).1

/-- The state after a sequence of calls. -/
def run (p : Provider K V) (cs : List (Call K V)) : Provider K V :=
  cs.foldl exec p

/-- A call of `SessionInit` is made with a sid that is not a key of the
`sessions` map; nothing is asked of the other calls. -/
def FreshInit (p : Provider K V) : Call K V → Prop
  | .Init sid _ => p.sessions sid = none
  | _ => True

/-- Every `SessionInit` of the sequence is called with a sid that is not a
key of the `sessions` map at the time of the call. -/
def FreshInits : Provider K V → List (Call K V) → Prop
  | _, [] => True
  | p, c :: cs => FreshInit p c ∧ FreshInits (exec p c) cs

/-- The clock reading that a call stores in a `timeAccessed`, if it stores
one.  A `Set` or `Delete` that panics does not reach `SessionUpdate` and reads
no clock; `SessionGC` only compares its readings. -/
def Call.stamp : Call K V → Option Time
  | .Init _ now => some now
  | .Update _ now => some now
  | .Set _ key _ now => if key.hashable then some now else none
  | .Get _ _ now => some now
  | .Delete _ key now => if key.hashable then some now else none
  | .Read _ => none
  | .Destroy _ => none
  | .GC _ _ => none

/-- The clock does not go backwards from one call of the sequence to the
next: the readings that the calls store are non-decreasing. -/
def ClockMonotone (cs : List (Call K V)) : Prop :=
  List.Chain' (fun a b : Time => a ≤ b) (cs.filterMap Call.stamp)

end Calls

/-! ## Concrete stores -/

/-- The largest `int64`. -/
def maxInt64 : Int := 9223372036854775807

/-- One session `"a"`, last accessed in second 1. -/
def storeOne : Provider Nat Nat :=
  run pder [.Init "a" 1000000000]

/-- Session `"b"` (second 1) in front of session `"a"` (second 0). -/
def storeTwo : Provider Nat Nat :=
  run pder [.Init "a" 0, .Init "b" 1000000000]

/-- Sessions `"c"`, `"b"`, `"a"` from front to back, last accessed in seconds
10, 9 and 7. -/
def storeThree : Provider Nat Nat :=
  run pder [.Init "a" 7000000000, .Init "b" 9000000000, .Init "c" 10000000000]

/-- Sessions `"b"`, `"a"`, `"c"` from front to back, last accessed in seconds
16, 14 and 10. -/
def storeAhead : Provider Nat Nat :=
  run pder [.Init "c" 10000000000, .Init "a" 14000000000, .Init "b" 16000000000]

/-- A sequence of calls that uses every operation: it creates `"a"` and
`"b"`, writes and reads an attribute of `"a"`, touches `"a"`, sweeps, destroys
`"b"` and creates it again, and calls `Set` with a NaN key and `Delete` with an
unhashable key on the new `"b"`. -/
def traceMixed : List (Call Nat Nat) :=
  [.Init "a" 1000000000, .Set 0 (.val 7) (some 1) 2000000000, .Init "b" 3000000000,
   .Update "a" 4000000000, .GC 1 (fun _ => 5000000000), .Destroy "b",
   .Init "b" 6000000000, .Get 0 (.val 7) 6500000000, .Set 2 .nan (some 3) 6600000000,
   .Delete 2 .unhashable 6700000000, .Read "a"]

/-- Session `"b"` (second 0) in front of session `"a"` (second 10): a list
that is not sorted, as it is left when the clock has gone backwards. -/
def storeUnsorted : Provider Nat Nat :=
  run pder [.Init "a" 10000000000, .Init "b" 0]

/-- Calls on the handle of session `"b"` of `storeThree` (address 1): a write,
a read and a removal of the attribute 7, and a write under a NaN key. -/
def handleCalls : List (Call Nat Nat) :=
  [.Set 1 (.val 7) (some 4) 11000000000, .Get 1 (.val 7) 12000000000,
   .Delete 1 (.val 7) 13000000000, .Set 1 .nan (some 5) 14000000000]

/-! ## Calls on one handle -/

section Handles

variable {K V : Type}

/-- The call is a `Set`, `Get` or `Delete` on the session handle `h`. -/
def OnHandle (h : Ptr) : Call K V → Prop
  | .Set st _ _ _ => st = h
  | .Get st _ _ => st = h
  | .Delete st _ _ => st = h
  | _ => False

/-- The calls `SessionInit(sid)` at `t0`, `SessionInit(sid)` once more at `t1`
and `SessionGC(maxlifetime)` under a clock that reads `now`. -/
def duplicateThenGC (sid : String) (maxlifetime : Int) (t0 t1 now : Time) :
    List (Call K V) :=
  [.Init sid t0, .Init sid t1, .GC maxlifetime (fun _ => now)]

end Handles

/-! ## The mutex

The operations of the provider once more, this time as the sequence of what
they do to the mutex `pder.lock`, to the `sessions` map and to the list, in
program order.  A `defer pder.lock.Unlock()` is the last event of the call. -/

section Lock

variable {K V : Type}

/-- What a statement does to the mutex, the `sessions` map or the list. -/
inductive Event where
  /-- The call `pder.lock.Lock()`. -/
  | Lock
  /-- The call `pder.lock.Unlock()`. -/
  | Unlock
  /-- A lookup in `pder.sessions`. -/
  | readSessions
  /-- An assignment to or a `delete` from `pder.sessions`. -/
  | writeSessions
  /-- A call of `Back` on `pder.list`. -/
  | readList
  /-- A call of `PushFront`, `Remove` or `MoveToFront` on `pder.list`. -/
  | writeList
  deriving DecidableEq

/-- The event is a read or a write of the map or of the list. -/
def Event.isAccess : Event → Bool
  | .Lock => false
  | .Unlock => false
  | _ => true

/-- The call takes the mutex first, releases it last and in between only
reads and writes the map and the list. -/
def HoldsLock : List Event → Bool
  | .Lock :: rest => (rest.getLast? == some Event.Unlock) && rest.dropLast.all Event.isAccess
  | _ => false

/-- The events of `SessionInit`: `Lock`, `PushFront`, `pder.sessions[sid] =
element`, and the deferred `Unlock`. -/
def SessionInit.events : List Event :=
  [.Lock, .writeList, .writeSessions, .Unlock]

/-- The events of `SessionRead`: the lookup `pder.sessions[sid]`. -/
def SessionRead.events : List Event :=
  [.readSessions]

/-- The events of `SessionDestroy`: the lookup `pder.sessions[sid]` and, when
the sid is registered, `delete(pder.sessions, sid)` and `Remove`. -/
def SessionDestroy.events (sid : String) (p : Provider K V) : List Event :=
  match p.sessions sid with
  | some _ => [.readSessions, .writeSessions, .writeList]
  | none => [.readSessions]

/-- The events of the loop of `SessionGC`, pass by pass: `Back`, and for an
expired element `Remove` and `delete(pder.sessions, sid)`. -/
def gcEvents (maxlifetime : Int) (clock : Nat → Time) :
    Nat → Nat → Provider K V → List Event
  | 0, _, _ => []
  | fuel + 1, i, p =>
    match gcStep maxlifetime (clock i) p with
    | none => [.readList]
    | some p1 =>
      .readList :: .writeList :: .writeSessions :: gcEvents maxlifetime clock fuel (i + 1) p1

/-- The events of `SessionGC`: `Lock`, the loop, and the deferred `Unlock`. -/
def SessionGC.events (maxlifetime : Int) (clock : Nat → Time) (p : Provider K V) :
    List Event :=
  .Lock :: (gcEvents maxlifetime clock (p.list.length + 1) 0 p ++ [.Unlock])

/-- The events of `SessionUpdate`: `Lock`, the lookup `pder.sessions[sid]`,
`MoveToFront` when the sid is registered, and the deferred `Unlock`. -/
def SessionUpdate.events (sid : String) (p : Provider K V) : List Event :=
  match p.sessions sid with
  | some _ => [.Lock, .readSessions, .writeList, .Unlock]
  | none => [.Lock, .readSessions, .Unlock]

end Lock

end Memory

/-! # The registry of providers (`session.go`, package `session`) -/

namespace Session

/-- Source: `func Register(name string, provide Provider)` on the registry
`var provides = make(map[string]Provider)`.  The interface value `provide` is
`none` when it is `nil`; the second component of the result is the message of
the panic, `none` when the call returns. -/
def Register {P : Type} (name : String) (provide : Option P)
    (provides : String → Option P) : (String → Option P) × Option String :=
  match provide with
  | none => (provides, some "session: Register provide is nil")
  | some pr =>
    match provides name with
    | some _ => (provides, some ("session: Register called twice for provide " ++ name))
    | none => (Function.update provides name (some pr), none)

end Session

namespace Memory

/-! ## Lemmas on the bijection invariant -/

section BijectionLemmas

variable {K V : Type}

theorem Bijection.nodup {p : Provider K V} (h : Bijection p) : p.list.Nodup :=
  List.Nodup.of_map _ h.2.2

theorem bijection_pder : Bijection (pder : Provider K V) := by
  refine ⟨?_, ?_, ?_⟩
  · intro sid e h; simp [pder] at h
  · intro e h; simp [pder] at h
  · simp [pder]

/-- Unlinking a list element and deleting the key of its sid keeps the
bijection. -/
theorem bijection_remove {p : Provider K V} (h : Bijection p) {e : Ptr}
    (he : e ∈ p.list) :
    Bijection { p with
      sessions := Function.update p.sessions (p.heap e).sid none
      list := Remove p.list e } := by
  obtain ⟨h1, h2, h3⟩ := h
  have hnd : p.list.Nodup := List.Nodup.of_map _ h3
  refine ⟨?_, ?_, ?_⟩
  · intro sid e' hs
    simp only at hs
    by_cases hk : sid = (p.heap e).sid
    · subst hk; simp at hs
    · rw [Function.update_noteq hk] at hs
      obtain ⟨hm, hsid⟩ := h1 sid e' hs
      refine ⟨?_, hsid⟩
      have hne : e' ≠ e := by rintro rfl; exact hk hsid.symm
      exact (List.mem_erase_of_ne hne).2 hm
  · intro e' he'
    have he2 : e' ∈ p.list.erase e := he'
    have hm : e' ∈ p.list := List.mem_of_mem_erase he2
    have hne : e' ≠ e := by
      rintro rfl; exact (List.Nodup.mem_erase_iff hnd).1 he2 |>.1 rfl
    have hsid : (p.heap e').sid ≠ (p.heap e).sid := by
      intro heq
      have a := h2 e' hm
      have b := h2 e he
      rw [heq] at a; rw [a] at b
      exact hne (Option.some.inj b)
    show Function.update p.sessions (p.heap e).sid none (p.heap e').sid = some e'
    rw [Function.update_noteq hsid]; exact h2 e' hm
  · exact h3.sublist ((List.erase_sublist e p.list).map _)

/-- The bijection only depends on the map, on the list up to its order and on
the sids in memory. -/
theorem bijection_of_perm {p q : Provider K V} (h : Bijection p)
    (hs : q.sessions = p.sessions) (hl : List.Perm q.list p.list)
    (hsid : ∀ e, (q.heap e).sid = (p.heap e).sid) : Bijection q := by
  obtain ⟨h1, h2, h3⟩ := h
  refine ⟨?_, ?_, ?_⟩
  · intro sid e he
    rw [hs] at he
    obtain ⟨hm, hk⟩ := h1 sid e he
    exact ⟨hl.mem_iff.2 hm, (hsid e).trans hk⟩
  · intro e he
    rw [hs, hsid]
    exact h2 e (hl.mem_iff.1 he)
  · have : (fun e => (q.heap e).sid) = (fun e => (p.heap e).sid) := funext hsid
    rw [this]
    exact (List.Perm.nodup_iff (hl.map _)).2 h3

theorem perm_MoveToFront (l : List Ptr) (e : Ptr) : List.Perm (MoveToFront l e) l := by
  unfold MoveToFront
  split
  · rename_i h; exact (List.perm_cons_erase h).symm
  · exact List.Perm.refl _

theorem bijection_SessionUpdate {p : Provider K V} (h : Bijection p) (sid : String)
    (now : Time) : Bijection (SessionUpdate sid now p).1 := by
  unfold SessionUpdate
  split
  · rename_i element hel
    refine bijection_of_perm h rfl (perm_MoveToFront _ _) ?_
    intro e
    by_cases hee : e = element
    · subst hee; simp
    · simp [Function.update_noteq hee]
  · exact h

theorem bijection_SessionDestroy {p : Provider K V} (h : Bijection p) (sid : String) :
    Bijection (SessionDestroy sid p).1 := by
  unfold SessionDestroy
  split
  · rename_i element hel
    obtain ⟨hm, hk⟩ := h.1 sid element hel
    have := bijection_remove h hm
    rw [hk] at this
    exact this
  · exact h

theorem bijection_gcStep {p p1 : Provider K V} (h : Bijection p) {maxlifetime : Int}
    {now : Time} (hs : gcStep maxlifetime now p = some p1) : Bijection p1 := by
  unfold gcStep at hs
  split at hs
  · exact absurd hs (by simp)
  · rename_i element hb
    split at hs
    · have hm : element ∈ p.list := List.mem_of_getLast?_eq_some hb
      have := bijection_remove h hm
      simp only [Option.some.injEq] at hs
      rw [← hs]; exact this
    · exact absurd hs (by simp)

/-- A property that every pass of the loop keeps holds when the loop is left. -/
theorem gcLoop_keeps (P : Provider K V → Prop) (maxlifetime : Int) (clock : Nat → Time)
    (hstep : ∀ now p p1, P p → gcStep maxlifetime now p = some p1 → P p1) :
    ∀ fuel i p p1, P p → gcLoop maxlifetime clock fuel i p = some p1 → P p1 := by
  intro fuel
  induction fuel with
  | zero => intro i p p1 _ h; simp [gcLoop] at h
  | succ n ih =>
    intro i p p1 hp h
    rw [gcLoop] at h
    split at h
    · simp only [Option.some.injEq] at h; rw [← h]; exact hp
    · rename_i p2 hstep2
      exact ih (i + 1) p2 p1 (hstep _ _ _ hp hstep2) h

theorem SessionGC_keeps (P : Provider K V → Prop) (maxlifetime : Int) (clock : Nat → Time)
    (hstep : ∀ now p p1, P p → gcStep maxlifetime now p = some p1 → P p1)
    (p : Provider K V) (hp : P p) : P (SessionGC maxlifetime clock p) := by
  unfold SessionGC
  cases hg : gcLoop maxlifetime clock (p.list.length + 1) 0 p with
  | none => exact hp
  | some p1 => exact gcLoop_keeps P maxlifetime clock hstep _ _ _ _ hp hg

theorem bijection_SessionGC {p : Provider K V} (h : Bijection p) (maxlifetime : Int)
    (clock : Nat → Time) : Bijection (SessionGC maxlifetime clock p) :=
  SessionGC_keeps Bijection maxlifetime clock (fun _ _ _ hp hs => bijection_gcStep hp hs) p h

theorem bijection_SessionInit {p : Provider K V} (h : Bijection p) (ha : Allocated p)
    {sid : String} (hf : p.sessions sid = none) (now : Time) :
    Bijection (SessionInit sid now p).1 := by
  obtain ⟨h1, h2, h3⟩ := h
  have hfresh : p.next ∉ p.list := fun hm => lt_irrefl _ (ha _ hm)
  have hheap : ∀ e ∈ p.list, ∀ s : SessionStore K V,
      Function.update p.heap p.next s e = p.heap e :=
    fun e he s => Function.update_noteq (by rintro rfl; exact hfresh he) _ _
  refine ⟨?_, ?_, ?_⟩
  · intro k e hk
    simp only [SessionInit, PushFront] at hk ⊢
    by_cases hks : k = sid
    · subst hks
      rw [Function.update_same] at hk
      cases hk
      simp
    · rw [Function.update_noteq hks] at hk
      obtain ⟨hm, hk2⟩ := h1 k e hk
      exact ⟨List.mem_cons_of_mem _ hm, by rw [hheap e hm]; exact hk2⟩
  · intro e he
    simp only [SessionInit, PushFront, List.mem_cons] at he ⊢
    rcases he with rfl | he
    · rw [Function.update_same, Function.update_same]
    · rw [hheap e he]
      have hne : (p.heap e).sid ≠ sid := by
        intro heq
        have := h2 e he
        rw [heq, hf] at this
        cases this
      rw [Function.update_noteq hne]; exact h2 e he
  · simp only [SessionInit, PushFront, List.map_cons, Function.update_same, List.nodup_cons]
    have hmap : p.list.map (fun e => (Function.update p.heap p.next
        { sid := sid, timeAccessed := now, value := fun _ => none } e).sid)
        = p.list.map (fun e => (p.heap e).sid) :=
      List.map_congr_left (fun e he => by rw [hheap e he])
    rw [hmap]
    refine ⟨?_, h3⟩
    intro hm
    obtain ⟨e, he, hes⟩ := List.mem_map.1 hm
    have := h2 e he
    rw [hes, hf] at this
    cases this

/-- Writing an attribute map leaves the bijection alone. -/
theorem bijection_setValue {p : Provider K V} (h : Bijection p) (st : Ptr)
    (value1 : K → Option (Option V)) :
    Bijection { p with
      heap := Function.update p.heap st { p.heap st with value := value1 } } := by
  refine bijection_of_perm h rfl (List.Perm.refl _) ?_
  intro e
  by_cases hee : e = st
  · subst hee; simp
  · simp [Function.update_noteq hee]

theorem allocated_SessionInit {p : Provider K V} (ha : Allocated p) (sid : String)
    (now : Time) : Allocated (SessionInit sid now p).1 := by
  intro e he
  simp only [SessionInit, PushFront, List.mem_cons] at he ⊢
  rcases he with rfl | he
  · exact Nat.lt_succ_self _
  · exact Nat.lt_succ_of_lt (ha e he)

theorem allocated_of_subset {p q : Provider K V} (ha : Allocated p)
    (hn : q.next = p.next) (hl : ∀ e ∈ q.list, e ∈ p.list) : Allocated q := by
  intro e he
  rw [hn]
  exact ha e (hl e he)

theorem allocated_SessionUpdate {p : Provider K V} (ha : Allocated p) (sid : String)
    (now : Time) : Allocated (SessionUpdate sid now p).1 := by
  unfold SessionUpdate
  split
  · exact allocated_of_subset ha rfl (fun e he => (perm_MoveToFront _ _).mem_iff.1 he)
  · exact ha

theorem allocated_SessionDestroy {p : Provider K V} (ha : Allocated p) (sid : String) :
    Allocated (SessionDestroy sid p).1 := by
  unfold SessionDestroy
  split
  · exact allocated_of_subset ha rfl (fun e he => List.mem_of_mem_erase he)
  · exact ha

theorem allocated_gcStep {p p1 : Provider K V} (ha : Allocated p) {maxlifetime : Int}
    {now : Time} (hs : gcStep maxlifetime now p = some p1) : Allocated p1 := by
  unfold gcStep at hs
  split at hs
  · exact absurd hs (by simp)
  · split at hs
    · simp only [Option.some.injEq] at hs
      rw [← hs]
      exact allocated_of_subset ha rfl (fun e he => List.mem_of_mem_erase he)
    · exact absurd hs (by simp)

theorem allocated_SessionGC {p : Provider K V} (ha : Allocated p) (maxlifetime : Int)
    (clock : Nat → Time) : Allocated (SessionGC maxlifetime clock p) :=
  SessionGC_keeps Allocated maxlifetime clock (fun _ _ _ hp hs => allocated_gcStep hp hs) p ha

theorem allocated_setValue {p : Provider K V} (ha : Allocated p) (st : Ptr)
    (value1 : K → Option (Option V)) :
    Allocated { p with
      heap := Function.update p.heap st { p.heap st with value := value1 } } :=
  allocated_of_subset ha rfl (fun _ he => he)

/-- The state a `Get` leaves is the state its touch leaves, whatever the key. -/
theorem Get_state (st : Ptr) (key : Key K) (now : Time) (p : Provider K V) :
    (SessionStore.Get st key now p).1 = (SessionUpdate (p.heap st).sid now p).1 := by
  cases key with
  | val k =>
    cases h : ((SessionUpdate (p.heap st).sid now p).1.heap st).value k <;>
      simp [SessionStore.Get, mapaccess, h]
  | nan => simp [SessionStore.Get, mapaccess]
  | unhashable => simp [SessionStore.Get, mapaccess]

/-- What holds of the store as it was, and of every store touched after a write
of the attribute map of the handle, holds of the state a `Set` leaves. -/
theorem Set_state [DecidableEq K] (P : Provider K V → Prop) (st : Ptr) (key : Key K)
    (v : Option V) (now : Time) (p : Provider K V) (hpanic : P p)
    (hwrite : ∀ value1 : K → Option (Option V), P (SessionUpdate (p.heap st).sid now
      { p with heap := Function.update p.heap st { p.heap st with value := value1 } }).1) :
    P (SessionStore.Set st key v now p).1 := by
  cases key with
  | val k =>
    simp only [SessionStore.Set, mapassign, Function.update_same]
    exact hwrite _
  | nan =>
    simp only [SessionStore.Set, mapassign, Function.update_same]
    exact hwrite _
  | unhashable =>
    simp only [SessionStore.Set, mapassign]
    exact hpanic

/-- What holds of the store as it was, and of every store touched after a write
of the attribute map of the handle, holds of the state a `Delete` leaves. -/
theorem Delete_state [DecidableEq K] (P : Provider K V → Prop) (st : Ptr) (key : Key K)
    (now : Time) (p : Provider K V) (hpanic : P p)
    (hwrite : ∀ value1 : K → Option (Option V), P (SessionUpdate (p.heap st).sid now
      { p with heap := Function.update p.heap st { p.heap st with value := value1 } }).1) :
    P (SessionStore.Delete st key now p).1 := by
  cases key with
  | val k =>
    simp only [SessionStore.Delete, mapdelete, Function.update_same]
    exact hwrite _
  | nan =>
    simp only [SessionStore.Delete, mapdelete, Function.update_same]
    exact hwrite _
  | unhashable =>
    simp only [SessionStore.Delete, mapdelete]
    exact hpanic

/-- Every call keeps the bijection and the allocation bound, a `SessionInit`
when its sid is not registered. -/
theorem bijection_exec [DecidableEq K] {p : Provider K V} (h : Bijection p)
    (ha : Allocated p) (c : Call K V) (hf : FreshInit p c) :
    Bijection (exec p c) ∧ Allocated (exec p c) := by
  cases c with
  | Init sid now => exact ⟨bijection_SessionInit h ha hf now, allocated_SessionInit ha sid now⟩
  | Read sid =>
    have : (SessionRead sid p).1 = p := by unfold SessionRead; split <;> rfl
    simp only [exec, this]; exact ⟨h, ha⟩
  | Update sid now => exact ⟨bijection_SessionUpdate h sid now, allocated_SessionUpdate ha sid now⟩
  | Destroy sid => exact ⟨bijection_SessionDestroy h sid, allocated_SessionDestroy ha sid⟩
  | GC maxlifetime clock =>
    exact ⟨bijection_SessionGC h maxlifetime clock, allocated_SessionGC ha maxlifetime clock⟩
  | Set st key value now =>
    exact Set_state (fun q => Bijection q ∧ Allocated q) st key value now p ⟨h, ha⟩
      (fun value1 => ⟨bijection_SessionUpdate (bijection_setValue h st value1) _ now,
        allocated_SessionUpdate (allocated_setValue ha st value1) _ now⟩)
  | Get st key now =>
    simp only [exec, Get_state]
    exact ⟨bijection_SessionUpdate h _ now, allocated_SessionUpdate ha _ now⟩
  | Delete st key now =>
    exact Delete_state (fun q => Bijection q ∧ Allocated q) st key now p ⟨h, ha⟩
      (fun value1 => ⟨bijection_SessionUpdate (bijection_setValue h st value1) _ now,
        allocated_SessionUpdate (allocated_setValue ha st value1) _ now⟩)

theorem bijection_run [DecidableEq K] (cs : List (Call K V)) :
    ∀ p : Provider K V, Bijection p → Allocated p → FreshInits p cs →
      Bijection (run p cs) ∧ Allocated (run p cs) := by
  induction cs with
  | nil => intro p h ha _; exact ⟨h, ha⟩
  | cons c cs ih =>
    intro p h ha hf
    obtain ⟨h1, ha1⟩ := bijection_exec h ha c hf.1
    exact ih (exec p c) h1 ha1 hf.2

theorem bijection_run_pder [DecidableEq K] (cs : List (Call K V))
    (h : FreshInits pder cs) : Bijection (run pder cs) :=
  (bijection_run cs pder bijection_pder (fun _ he => absurd he (by simp [pder])) h).1

end BijectionLemmas

/-! ## Lemmas on the recency order -/

section OrderLemmas

variable {K V : Type}

theorem sortedByTime_iff (p : Provider K V) :
    SortedByTime p ↔ (times p).Pairwise (fun a b : Time => a ≥ b) :=
  List.chain'_iff_pairwise

theorem Stamped.mono {t t1 : Time} {p : Provider K V} (h : Stamped t p) (ht : t ≤ t1) :
    Stamped t1 p :=
  ⟨h.1, h.2.1, h.2.2.1, fun e he => le_trans (h.2.2.2 e he) ht⟩

theorem stamped_pder (t : Time) : Stamped t (pder : Provider K V) := by
  refine ⟨?_, ?_, ?_, ?_⟩ <;> simp [pder, Allocated, times]

/-- Unlinking elements and writing fields other than `timeAccessed` keeps the
order. -/
theorem stamped_of_sublist {t : Time} {p q : Provider K V} (h : Stamped t p)
    (hn : q.next = p.next) (hl : List.Sublist q.list p.list)
    (ht : ∀ e, (q.heap e).timeAccessed = (p.heap e).timeAccessed) : Stamped t q := by
  obtain ⟨h1, h2, h3, h4⟩ := h
  refine ⟨h1.sublist hl, allocated_of_subset h2 hn (fun e he => hl.subset he), ?_, ?_⟩
  · have : times q = q.list.map (fun e => (p.heap e).timeAccessed) := by
      unfold times; exact List.map_congr_left (fun e _ => ht e)
    rw [this]
    exact h3.sublist (hl.map _)
  · intro e he
    rw [ht]
    exact h4 e (hl.subset he)

theorem stamped_SessionInit {t : Time} {p : Provider K V} (h : Stamped t p) (sid : String)
    {now : Time} (hnow : t ≤ now) : Stamped now (SessionInit sid now p).1 := by
  obtain ⟨h1, h2, h3, h4⟩ := h
  have hfresh : p.next ∉ p.list := fun hm => lt_irrefl _ (h2 _ hm)
  have hheap : ∀ e ∈ p.list, ∀ s : SessionStore K V,
      Function.update p.heap p.next s e = p.heap e :=
    fun e he s => Function.update_noteq (by rintro rfl; exact hfresh he) _ _
  have htimes : times (SessionInit sid now p).1 = now :: times p := by
    simp only [times, SessionInit, PushFront, List.map_cons, Function.update_same]
    congr 1
    exact List.map_congr_left (fun e he => by rw [hheap e he])
  refine ⟨?_, allocated_SessionInit h2 sid now, ?_, ?_⟩
  · exact List.nodup_cons.2 ⟨hfresh, h1⟩
  · rw [htimes]
    refine List.pairwise_cons.2 ⟨?_, h3⟩
    intro a ha
    obtain ⟨e, he, rfl⟩ := List.mem_map.1 ha
    exact le_trans (h4 e he) hnow
  · intro e he
    simp only [SessionInit, PushFront, List.mem_cons] at he ⊢
    rcases he with rfl | he
    · rw [Function.update_same]
    · rw [hheap e he]; exact le_trans (h4 e he) hnow

theorem stamped_SessionUpdate {t : Time} {p : Provider K V} (h : Stamped t p) (sid : String)
    {now : Time} (hnow : t ≤ now) : Stamped now (SessionUpdate sid now p).1 := by
  unfold SessionUpdate
  split
  · rename_i element _
    obtain ⟨h1, h2, h3, h4⟩ := h
    have hheap : ∀ e, e ≠ element → ∀ s : SessionStore K V,
        Function.update p.heap element s e = p.heap e :=
      fun e he s => Function.update_noteq he _ _
    by_cases hm : element ∈ p.list
    · have hnot : element ∉ p.list.erase element := fun hx =>
        ((List.Nodup.mem_erase_iff h1).1 hx).1 rfl
      have hrest : ∀ e ∈ p.list.erase element, e ≠ element := fun e he hee => hnot (hee ▸ he)
      refine ⟨?_, ?_, ?_, ?_⟩
      · exact (List.Perm.nodup_iff (perm_MoveToFront _ _)).2 h1
      · exact allocated_of_subset h2 rfl (fun e he => (perm_MoveToFront _ _).mem_iff.1 he)
      · simp only [times, MoveToFront, if_pos hm, List.map_cons, Function.update_same]
        refine List.pairwise_cons.2 ⟨?_, ?_⟩
        · intro a ha
          obtain ⟨e, he, rfl⟩ := List.mem_map.1 ha
          rw [hheap e (hrest e he)]
          exact le_trans (h4 e (List.mem_of_mem_erase he)) hnow
        · have : (p.list.erase element).map (fun e => (Function.update p.heap element
              { p.heap element with timeAccessed := now } e).timeAccessed)
              = (p.list.erase element).map (fun e => (p.heap e).timeAccessed) :=
            List.map_congr_left (fun e he => by rw [hheap e (hrest e he)])
          rw [this]
          exact h3.sublist ((List.erase_sublist _ _).map _)
      · intro e he
        simp only [MoveToFront, if_pos hm, List.mem_cons] at he ⊢
        rcases he with rfl | he
        · rw [Function.update_same]
        · rw [hheap e (hrest e he)]
          exact le_trans (h4 e (List.mem_of_mem_erase he)) hnow
    · have hrest : ∀ e ∈ p.list, e ≠ element := fun e he hee => hm (hee ▸ he)
      refine ⟨?_, ?_, ?_, ?_⟩
      · simpa only [MoveToFront, if_neg hm] using h1
      · exact allocated_of_subset h2 rfl (fun e he => (perm_MoveToFront _ _).mem_iff.1 he)
      · simp only [times, MoveToFront, if_neg hm]
        have : p.list.map (fun e => (Function.update p.heap element
              { p.heap element with timeAccessed := now } e).timeAccessed)
              = p.list.map (fun e => (p.heap e).timeAccessed) :=
            List.map_congr_left (fun e he => by rw [hheap e (hrest e he)])
        rw [this]; exact h3
      · intro e he
        simp only [MoveToFront, if_neg hm] at he ⊢
        rw [hheap e (hrest e he)]
        exact le_trans (h4 e he) hnow
  · exact h.mono hnow

theorem stamped_SessionDestroy {t : Time} {p : Provider K V} (h : Stamped t p)
    (sid : String) : Stamped t (SessionDestroy sid p).1 := by
  unfold SessionDestroy
  split
  · exact stamped_of_sublist h rfl (List.erase_sublist _ _) (fun _ => rfl)
  · exact h

theorem stamped_gcStep {t : Time} {p p1 : Provider K V} (h : Stamped t p)
    {maxlifetime : Int} {now : Time} (hs : gcStep maxlifetime now p = some p1) :
    Stamped t p1 := by
  unfold gcStep at hs
  split at hs
  · exact absurd hs (by simp)
  · split at hs
    · simp only [Option.some.injEq] at hs
      rw [← hs]
      exact stamped_of_sublist h rfl (List.erase_sublist _ _) (fun _ => rfl)
    · exact absurd hs (by simp)

theorem stamped_setValue {t : Time} {p : Provider K V} (h : Stamped t p) (st : Ptr)
    (value1 : K → Option (Option V)) :
    Stamped t { p with
      heap := Function.update p.heap st { p.heap st with value := value1 } } := by
  refine stamped_of_sublist h rfl (List.Sublist.refl _) ?_
  intro e
  by_cases hee : e = st
  · subst hee; simp
  · simp [Function.update_noteq hee]

/-- A call that stores the clock reading `now`, not earlier than the last
reading `t`, leaves the list in order at `now`; a call that stores no reading
leaves it in order at `t`. -/
theorem stamped_exec [DecidableEq K] {t : Time} {p : Provider K V} (h : Stamped t p)
    (c : Call K V) (hc : ∀ now, c.stamp = some now → t ≤ now) :
    Stamped (c.stamp.getD t) (exec p c) := by
  cases c with
  | Init sid now => exact stamped_SessionInit h sid (hc now rfl)
  | Read sid =>
    have : (SessionRead sid p).1 = p := by unfold SessionRead; split <;> rfl
    simp only [exec, this]; exact h
  | Update sid now => exact stamped_SessionUpdate h sid (hc now rfl)
  | Destroy sid => exact stamped_SessionDestroy h sid
  | GC maxlifetime clock =>
    exact SessionGC_keeps (Stamped t) maxlifetime clock
      (fun _ _ _ hp hs => stamped_gcStep hp hs) p h
  | Set st key value now =>
    cases key with
    | val k =>
      exact Set_state (Stamped now) st (.val k) value now p (h.mono (hc now rfl))
        (fun value1 => stamped_SessionUpdate (stamped_setValue h st value1) _ (hc now rfl))
    | nan =>
      exact Set_state (Stamped now) st .nan value now p (h.mono (hc now rfl))
        (fun value1 => stamped_SessionUpdate (stamped_setValue h st value1) _ (hc now rfl))
    | unhashable => exact h
  | Get st key now =>
    simp only [exec, Get_state]
    exact stamped_SessionUpdate h _ (hc now rfl)
  | Delete st key now =>
    cases key with
    | val k =>
      exact Delete_state (Stamped now) st (.val k) now p (h.mono (hc now rfl))
        (fun value1 => stamped_SessionUpdate (stamped_setValue h st value1) _ (hc now rfl))
    | nan =>
      exact Delete_state (Stamped now) st .nan now p (h.mono (hc now rfl))
        (fun value1 => stamped_SessionUpdate (stamped_setValue h st value1) _ (hc now rfl))
    | unhashable => exact h

theorem stamped_run [DecidableEq K] (cs : List (Call K V)) :
    ∀ (t : Time) (p : Provider K V), Stamped t p →
      List.Chain (fun a b : Time => a ≤ b) t (cs.filterMap Call.stamp) →
      ∃ t1, Stamped t1 (run p cs) := by
  induction cs with
  | nil => intro t p h _; exact ⟨t, h⟩
  | cons c cs ih =>
    intro t p h hch
    cases hst : c.stamp with
    | none =>
      rw [List.filterMap_cons_none hst] at hch
      have := stamped_exec h c (fun now hn => by rw [hst] at hn; cases hn)
      rw [hst] at this
      exact ih t (exec p c) this hch
    | some now =>
      rw [List.filterMap_cons_some hst] at hch
      obtain ⟨htn, hch1⟩ := List.chain_cons.1 hch
      have := stamped_exec h c (fun n hn => by rw [hst] at hn; cases hn; exact htn)
      rw [hst] at this
      exact ih now (exec p c) this hch1

end OrderLemmas

/-! ## Lemmas on the sweep -/

section GCLemmas

variable {K V : Type}

theorem wrapInt64_of_inInt64 {x : Int} (h : inInt64 x) : wrapInt64 x = x := by
  unfold wrapInt64
  unfold inInt64 at h
  omega

theorem gcStep_nil {maxlifetime : Int} {now : Time} {p : Provider K V}
    (h : p.list = []) : gcStep maxlifetime now p = none := by
  simp [gcStep, Back, h]

/-- The pass of the loop on a list whose last element is `e`. -/
theorem gcStep_concat (maxlifetime : Int) (now : Time) {p : Provider K V}
    {l : List Ptr} {e : Ptr} (h : p.list = l ++ [e]) (hnd : p.list.Nodup) :
    gcStep maxlifetime now p =
      if expired maxlifetime now (p.heap e) then
        some { p with
          sessions := Function.update p.sessions (p.heap e).sid none
          list := l }
      else none := by
  have he : e ∉ l := by
    rw [h] at hnd
    intro hm
    exact (List.nodup_append.1 hnd).2.2 hm (List.mem_singleton_self e)
  have hb : Back p.list = some e := by rw [Back, h, List.getLast?_concat]
  have hr : Remove p.list e = l := by
    rw [Remove, h, List.erase_append_right _ he]; simp
  simp only [gcStep, hb, hr]

theorem gcStep_length {maxlifetime : Int} {now : Time} {p p1 : Provider K V}
    (hs : gcStep maxlifetime now p = some p1) : p1.list.length + 1 = p.list.length := by
  unfold gcStep at hs
  split at hs
  · exact absurd hs (by simp)
  · rename_i element hb
    split at hs
    · simp only [Option.some.injEq] at hs
      have hm : element ∈ p.list := List.mem_of_getLast?_eq_some hb
      have hpos : 0 < p.list.length := List.length_pos_of_mem hm
      rw [← hs]
      show (p.list.erase element).length + 1 = p.list.length
      rw [List.length_erase_of_mem hm]
      omega
    · exact absurd hs (by simp)

/-- With more passes than the list has elements the loop of `SessionGC` is
left through a `break`, whatever the clock reads. -/
theorem gcLoop_isSome (maxlifetime : Int) (clock : Nat → Time) :
    ∀ (fuel i : Nat) (p : Provider K V), p.list.length < fuel →
      (gcLoop maxlifetime clock fuel i p).isSome = true := by
  intro fuel
  induction fuel with
  | zero => intro i p h; exact absurd h (Nat.not_lt_zero _)
  | succ n ih =>
    intro i p h
    rw [gcLoop]
    split
    · rfl
    · rename_i p1 hs
      have := gcStep_length hs
      exact ih (i + 1) p1 (by omega)

/-- The state `SessionGC` returns is the state in which the loop is left. -/
theorem gcLoop_eq_SessionGC (maxlifetime : Int) (clock : Nat → Time) (p : Provider K V) :
    gcLoop maxlifetime clock (p.list.length + 1) 0 p =
      some (SessionGC maxlifetime clock p) := by
  have h := gcLoop_isSome maxlifetime clock (p.list.length + 1) 0 p (Nat.lt_succ_self _)
  unfold SessionGC
  cases hg : gcLoop maxlifetime clock (p.list.length + 1) 0 p with
  | none => rw [hg] at h; cases h
  | some q => rfl

/-- The loop of `SessionGC` under a clock that reads `now` throughout: it
drops the longest run of expired elements at the back of the list and writes
no `SessionStore`. -/
theorem gcLoop_const (maxlifetime : Int) (now : Time) :
    ∀ (fuel i : Nat) (p : Provider K V), p.list.Nodup → p.list.length < fuel →
      ∃ q, gcLoop maxlifetime (fun _ => now) fuel i p = some q ∧ q.heap = p.heap ∧
        q.next = p.next ∧
        q.list = p.list.rdropWhile (fun e => decide (expired maxlifetime now (p.heap e))) := by
  intro fuel
  induction fuel with
  | zero => intro i p _ h; exact absurd h (Nat.not_lt_zero _)
  | succ n ih =>
    intro i p hnd hlen
    rcases List.eq_nil_or_concat p.list with hnil | ⟨l, e, hl⟩
    · refine ⟨p, ?_, rfl, rfl, ?_⟩
      · rw [gcLoop, gcStep_nil hnil]
      · rw [hnil, List.rdropWhile_nil]
    · rw [List.concat_eq_append] at hl
      by_cases hx : expired maxlifetime now (p.heap e)
      · have hstep := gcStep_concat maxlifetime now hl hnd
        rw [if_pos hx] at hstep
        have hndl : l.Nodup := by
          rw [hl] at hnd; exact (List.nodup_append.1 hnd).1
        have hlenl : l.length < n := by
          rw [hl, List.length_append] at hlen
          simp only [List.length_singleton] at hlen
          omega
        obtain ⟨q, hq, hqh, hqn, hql⟩ := ih (i + 1)
          { p with
            sessions := Function.update p.sessions (p.heap e).sid none
            list := l } hndl hlenl
        refine ⟨q, ?_, hqh, hqn, ?_⟩
        · rw [gcLoop, hstep]; exact hq
        · rw [hql, hl]
          exact (List.rdropWhile_concat_pos _ _ _ (by simpa using hx)).symm
      · have hstep := gcStep_concat maxlifetime now hl hnd
        rw [if_neg hx] at hstep
        refine ⟨p, ?_, rfl, rfl, ?_⟩
        · rw [gcLoop, hstep]
        · rw [hl]
          exact (List.rdropWhile_concat_neg _ _ _ (by simpa using hx)).symm

theorem SessionGC_const (maxlifetime : Int) (now : Time) (p : Provider K V)
    (hnd : p.list.Nodup) :
    (SessionGC maxlifetime (fun _ => now) p).heap = p.heap ∧
    (SessionGC maxlifetime (fun _ => now) p).next = p.next ∧
    (SessionGC maxlifetime (fun _ => now) p).list =
      p.list.rdropWhile (fun e => decide (expired maxlifetime now (p.heap e))) := by
  obtain ⟨q, hq, hqh, hqn, hql⟩ :=
    gcLoop_const maxlifetime now (p.list.length + 1) 0 p hnd (Nat.lt_succ_self _)
  unfold SessionGC
  rw [hq]
  exact ⟨hqh, hqn, hql⟩

/-- When every element behind an element satisfying `P` satisfies `P`,
dropping the run of `P` at the back leaves the elements that fail `P`. -/
theorem rdropWhile_eq_filter {α : Type} (P : α → Bool) (l : List α)
    (h : l.Pairwise (fun a b => P a = true → P b = true)) :
    l.rdropWhile P = l.filter (fun a => !P a) := by
  induction l using List.reverseRecOn with
  | nil => simp
  | append_singleton l a ih =>
    have hp := List.pairwise_append.1 h
    cases hPa : P a with
    | true =>
      rw [List.rdropWhile_concat_pos _ _ _ hPa, ih hp.1, List.filter_append]
      simp [hPa]
    | false =>
      rw [List.rdropWhile_concat_neg _ _ _ (by simp [hPa]), List.filter_append]
      have hall : ∀ x ∈ l, (!P x) = true := by
        intro x hx
        cases hPx : P x with
        | false => rfl
        | true =>
          have := hp.2.2 x hx a (List.mem_singleton_self a) hPx
          rw [hPa] at this; cases this
      rw [List.filter_eq_self.2 hall]
      simp [hPa]

theorem Unix_mono {a b : Time} (h : a ≤ b) : Unix a ≤ Unix b :=
  Int.ediv_le_ediv (by decide) h

end GCLemmas

/-! ## Lemmas on the session handles -/

section HandleLemmas

variable {K V : Type}

/-- The call `SessionUpdate` writes no attribute map. -/
theorem SessionUpdate_value (sid : String) (now : Time) (p : Provider K V) (e : Ptr) :
    ((SessionUpdate sid now p).1.heap e).value = (p.heap e).value := by
  unfold SessionUpdate
  split
  · rename_i element _
    by_cases hee : e = element
    · subst hee; simp
    · simp [Function.update_noteq hee]
  · rfl

/-- The call `SessionUpdate` writes no sid. -/
theorem SessionUpdate_sid (sid : String) (now : Time) (p : Provider K V) (e : Ptr) :
    ((SessionUpdate sid now p).1.heap e).sid = (p.heap e).sid := by
  unfold SessionUpdate
  split
  · rename_i element _
    by_cases hee : e = element
    · subst hee; simp
    · simp [Function.update_noteq hee]
  · rfl

theorem SessionUpdate_sessions (sid : String) (now : Time) (p : Provider K V) :
    (SessionUpdate sid now p).1.sessions = p.sessions := by
  unfold SessionUpdate
  split <;> rfl

/-- What `Get` returns for a key that is equal to itself: the value stored
under the key, `nil` when there is none. -/
theorem Get_result (st : Ptr) (k : K) (now : Time) (p : Provider K V) :
    (SessionStore.Get st (.val k) now p).2 =
      .returns (match (p.heap st).value k with
        | some v => v
        | none => none) := by
  have hv := SessionUpdate_value (p.heap st).sid now p st
  simp only [SessionStore.Get, mapaccess, hv]
  cases (p.heap st).value k <;> rfl

/-- What `Get` does for a NaN key: it returns `nil`, whatever has been set. -/
theorem Get_nan (st : Ptr) (now : Time) (p : Provider K V) :
    (SessionStore.Get st .nan now p).2 = .returns none := by
  simp only [SessionStore.Get, mapaccess]

/-- What `Get` does for an unhashable key: it panics. -/
theorem Get_unhashable (st : Ptr) (now : Time) (p : Provider K V) :
    (SessionStore.Get st .unhashable now p).2 = .panics := by
  simp only [SessionStore.Get, mapaccess]

theorem Set_value [DecidableEq K] (st : Ptr) (k : K) (value : Option V) (now : Time)
    (p : Provider K V) :
    ((SessionStore.Set st (.val k) value now p).1.heap st).value =
      Function.update (p.heap st).value k (some value) := by
  simp only [SessionStore.Set, mapassign, SessionUpdate_value, Function.update_same]

theorem Delete_value [DecidableEq K] (st : Ptr) (k : K) (now : Time) (p : Provider K V) :
    ((SessionStore.Delete st (.val k) now p).1.heap st).value =
      Function.update (p.heap st).value k none := by
  simp only [SessionStore.Delete, mapdelete, SessionUpdate_value, Function.update_same]

/-- A `Set` writes, of the attribute map of its handle, at most the key it is
called with. -/
theorem Set_value_other [DecidableEq K] (st : Ptr) (key : Key K) (value : Option V)
    (now : Time) (p : Provider K V) (k1 : K) (h : ∀ k, key = .val k → k1 ≠ k) :
    ((SessionStore.Set st key value now p).1.heap st).value k1 = (p.heap st).value k1 := by
  cases key with
  | val k => rw [Set_value, Function.update_noteq (h k rfl)]
  | nan => simp only [SessionStore.Set, mapassign, SessionUpdate_value, Function.update_same]
  | unhashable => simp only [SessionStore.Set, mapassign]

/-- A `Delete` writes, of the attribute map of its handle, at most the key it
is called with. -/
theorem Delete_value_other [DecidableEq K] (st : Ptr) (key : Key K) (now : Time)
    (p : Provider K V) (k1 : K) (h : ∀ k, key = .val k → k1 ≠ k) :
    ((SessionStore.Delete st key now p).1.heap st).value k1 = (p.heap st).value k1 := by
  cases key with
  | val k => rw [Delete_value, Function.update_noteq (h k rfl)]
  | nan => simp only [SessionStore.Delete, mapdelete, SessionUpdate_value, Function.update_same]
  | unhashable => simp only [SessionStore.Delete, mapdelete]

/-- A touch of a registered sid in a store with the bijection: the element is
stamped and moved to the front. -/
theorem SessionUpdate_registered {p : Provider K V} (hb : Bijection p) {sid : String}
    {e : Ptr} (h : p.sessions sid = some e) (now : Time) :
    (SessionUpdate sid now p).1 =
      { p with
        heap := Function.update p.heap e { p.heap e with timeAccessed := now }
        list := e :: p.list.erase e } := by
  have hm : e ∈ p.list := (hb.1 sid e h).1
  simp only [SessionUpdate, h, MoveToFront, if_pos hm]

end HandleLemmas

/-! ## Frames and passes -/

section FrameLemmas

variable {K V : Type}

/-- In a list without repetition the filter of a property that only `a`
has is `[a]`. -/
theorem filter_unique {α : Type} (P : α → Bool) (a : α) :
    ∀ l : List α, l.Nodup → a ∈ l → (∀ e ∈ l, (P e = true ↔ e = a)) → l.filter P = [a] := by
  intro l
  induction l with
  | nil => intro _ ha _; cases ha
  | cons x xs ih =>
    intro hnd ha hP
    obtain ⟨hx, hnd1⟩ := List.nodup_cons.1 hnd
    by_cases hxa : x = a
    · subst hxa
      have hPx : P x = true := (hP x (List.mem_cons_self _ _)).2 rfl
      have hnil : xs.filter P = [] := by
        refine List.filter_eq_nil_iff.2 ?_
        intro e he hPe
        have := (hP e (List.mem_cons_of_mem _ he)).1 hPe
        exact hx (this ▸ he)
      rw [List.filter_cons_of_pos hPx, hnil]
    · have hPx : ¬ P x = true := fun h => hxa ((hP x (List.mem_cons_self _ _)).1 h)
      have ha1 : a ∈ xs := by
        rcases List.mem_cons.1 ha with h | h
        · exact absurd h.symm hxa
        · exact h
      rw [List.filter_cons_of_neg hPx]
      exact ih hnd1 ha1 (fun e he => hP e (List.mem_cons_of_mem _ he))

/-- A list is what is left of it after the run of `P` at the back has been
dropped, followed by that run. -/
theorem rdropWhile_append_rtakeWhile {α : Type} (P : α → Bool) (l : List α) :
    l.rdropWhile P ++ l.rtakeWhile P = l := by
  unfold List.rdropWhile List.rtakeWhile
  rw [← List.reverse_append, List.takeWhile_append_dropWhile, List.reverse_reverse]

/-- The loop of `SessionGC` on a list of `n` elements needs `k + 1` passes for
some `k ≤ n`: it does not leave within `k` passes, it leaves within any larger
number, and it unlinks `k` elements. -/
theorem gcLoop_passes (maxlifetime : Int) (clock : Nat → Time) :
    ∀ (n i : Nat) (p : Provider K V), p.list.length = n →
      ∃ k q, k ≤ n ∧ q.list.length + k = n ∧
        (∀ fuel, fuel ≤ k → gcLoop maxlifetime clock fuel i p = none) ∧
        (∀ fuel, k < fuel → gcLoop maxlifetime clock fuel i p = some q) := by
  intro n
  induction n with
  | zero =>
    intro i p hn
    have hnil : p.list = [] := List.length_eq_zero.1 hn
    refine ⟨0, p, le_refl 0, by simpa using hn, ?_, ?_⟩
    · intro fuel hf
      have : fuel = 0 := by omega
      subst this; rfl
    · intro fuel hf
      obtain ⟨f, rfl⟩ : ∃ f, fuel = f + 1 := ⟨fuel - 1, by omega⟩
      rw [gcLoop, gcStep_nil hnil]
  | succ m ih =>
    intro i p hn
    cases hs : gcStep maxlifetime (clock i) p with
    | none =>
      refine ⟨0, p, Nat.zero_le _, by simpa using hn, ?_, ?_⟩
      · intro fuel hf
        have : fuel = 0 := by omega
        subst this; rfl
      · intro fuel hf
        obtain ⟨f, rfl⟩ : ∃ f, fuel = f + 1 := ⟨fuel - 1, by omega⟩
        rw [gcLoop, hs]
    | some p1 =>
      have hlen := gcStep_length hs
      obtain ⟨k, q, hk, hq, hnone, hsome⟩ := ih (i + 1) p1 (by omega)
      refine ⟨k + 1, q, by omega, by omega, ?_, ?_⟩
      · intro fuel hf
        cases fuel with
        | zero => rfl
        | succ f => rw [gcLoop, hs]; exact hnone f (by omega)
      · intro fuel hf
        obtain ⟨f, rfl⟩ : ∃ f, fuel = f + 1 := ⟨fuel - 1, by omega⟩
        rw [gcLoop, hs]; exact hsome f (by omega)

/-- A pass of the loop writes no `SessionStore` and links no element. -/
theorem gcStep_heap {maxlifetime : Int} {now : Time} {p p1 : Provider K V}
    (hs : gcStep maxlifetime now p = some p1) :
    p1.heap = p.heap ∧ ∀ e ∈ p1.list, e ∈ p.list := by
  unfold gcStep at hs
  split at hs
  · exact absurd hs (by simp)
  · split at hs
    · simp only [Option.some.injEq] at hs
      rw [← hs]
      exact ⟨rfl, fun e he => List.mem_of_mem_erase he⟩
    · exact absurd hs (by simp)

/-- The sweep writes no `SessionStore` and links no element, whatever the
clock reads. -/
theorem SessionGC_heap (maxlifetime : Int) (clock : Nat → Time) (p : Provider K V) :
    (SessionGC maxlifetime clock p).heap = p.heap ∧
    ∀ e ∈ (SessionGC maxlifetime clock p).list, e ∈ p.list := by
  refine SessionGC_keeps (fun q => q.heap = p.heap ∧ ∀ e ∈ q.list, e ∈ p.list)
    maxlifetime clock ?_ p ⟨rfl, fun _ he => he⟩
  intro now q q1 hq hs
  obtain ⟨h1, h2⟩ := gcStep_heap hs
  exact ⟨h1.trans hq.1, fun e he => hq.2 e (h2 e he)⟩

/-- The call `SessionDestroy` writes no `SessionStore`. -/
theorem SessionDestroy_heap (sid : String) (p : Provider K V) :
    (SessionDestroy sid p).1.heap = p.heap := by
  unfold SessionDestroy; split <;> rfl

/-- A written attribute map and a touch leave the other attribute maps and all
sids as they were. -/
theorem write_frame (st : Ptr) (sid : String) (now : Time) (p : Provider K V)
    (value1 : K → Option (Option V)) :
    (∀ e, e ≠ st → ((SessionUpdate sid now
      { p with heap := Function.update p.heap st { p.heap st with value := value1 } }).1.heap
        e).value = (p.heap e).value) ∧
    (∀ e, ((SessionUpdate sid now
      { p with heap := Function.update p.heap st { p.heap st with value := value1 } }).1.heap
        e).sid = (p.heap e).sid) := by
  simp only [SessionUpdate_value, SessionUpdate_sid]
  constructor
  · intro e he; simp [Function.update_noteq he]
  · intro e
    by_cases he : e = st
    · subst he; simp
    · simp [Function.update_noteq he]

/-- The call `Set` writes no attribute map but that of its handle, and no sid. -/
theorem Set_frame [DecidableEq K] (st : Ptr) (key : Key K) (v : Option V) (now : Time)
    (p : Provider K V) :
    (∀ e, e ≠ st → ((SessionStore.Set st key v now p).1.heap e).value = (p.heap e).value) ∧
    (∀ e, ((SessionStore.Set st key v now p).1.heap e).sid = (p.heap e).sid) :=
  Set_state (fun q => (∀ e, e ≠ st → (q.heap e).value = (p.heap e).value) ∧
      (∀ e, (q.heap e).sid = (p.heap e).sid)) st key v now p
    ⟨fun _ _ => rfl, fun _ => rfl⟩ (fun value1 => write_frame st _ now p value1)

/-- The call `Delete` writes no attribute map but that of its handle, and no
sid. -/
theorem Delete_frame [DecidableEq K] (st : Ptr) (key : Key K) (now : Time)
    (p : Provider K V) :
    (∀ e, e ≠ st → ((SessionStore.Delete st key now p).1.heap e).value = (p.heap e).value) ∧
    (∀ e, ((SessionStore.Delete st key now p).1.heap e).sid = (p.heap e).sid) :=
  Delete_state (fun q => (∀ e, e ≠ st → (q.heap e).value = (p.heap e).value) ∧
      (∀ e, (q.heap e).sid = (p.heap e).sid)) st key now p
    ⟨fun _ _ => rfl, fun _ => rfl⟩ (fun value1 => write_frame st _ now p value1)

/-- A touch of a sid that is not registered returns the store as it is. -/
theorem SessionUpdate_absent {p : Provider K V} {sid : String} (h : p.sessions sid = none)
    (now : Time) : (SessionUpdate sid now p).1 = p := by
  simp only [SessionUpdate, h]

/-- A written attribute map and a touch of a handle whose sid is not
registered leave the map, the list, the sid of the handle and the other
`SessionStore` objects as they were. -/
theorem write_detached {q : Provider K V} {h : Ptr}
    (hq : q.sessions (q.heap h).sid = none) (now : Time)
    (value1 : K → Option (Option V)) :
    (SessionUpdate (q.heap h).sid now
      { q with heap := Function.update q.heap h { q.heap h with value := value1 } }).1.sessions
        = q.sessions ∧
    (SessionUpdate (q.heap h).sid now
      { q with heap := Function.update q.heap h { q.heap h with value := value1 } }).1.list
        = q.list ∧
    ((SessionUpdate (q.heap h).sid now
      { q with heap := Function.update q.heap h { q.heap h with value := value1 } }).1.heap
        h).sid = (q.heap h).sid ∧
    (∀ e, e ≠ h → (SessionUpdate (q.heap h).sid now
      { q with heap := Function.update q.heap h { q.heap h with value := value1 } }).1.heap e
        = q.heap e) := by
  simp only [SessionUpdate, hq, Function.update_same]
  exact ⟨trivial, trivial, trivial, fun e he => Function.update_noteq he _ _⟩

/-- A `Set` on a handle whose sid is not registered writes at most the
attribute map of the handle. -/
theorem Set_detached [DecidableEq K] {q : Provider K V} {h : Ptr}
    (hq : q.sessions (q.heap h).sid = none) (key : Key K) (v : Option V) (now : Time) :
    (SessionStore.Set h key v now q).1.sessions = q.sessions ∧
    (SessionStore.Set h key v now q).1.list = q.list ∧
    ((SessionStore.Set h key v now q).1.heap h).sid = (q.heap h).sid ∧
    (∀ e, e ≠ h → (SessionStore.Set h key v now q).1.heap e = q.heap e) :=
  Set_state (fun r => r.sessions = q.sessions ∧ r.list = q.list ∧
      (r.heap h).sid = (q.heap h).sid ∧ (∀ e, e ≠ h → r.heap e = q.heap e)) h key v now q
    ⟨rfl, rfl, rfl, fun _ _ => rfl⟩ (fun value1 => write_detached hq now value1)

/-- A `Delete` on a handle whose sid is not registered writes at most the
attribute map of the handle. -/
theorem Delete_detached [DecidableEq K] {q : Provider K V} {h : Ptr}
    (hq : q.sessions (q.heap h).sid = none) (key : Key K) (now : Time) :
    (SessionStore.Delete h key now q).1.sessions = q.sessions ∧
    (SessionStore.Delete h key now q).1.list = q.list ∧
    ((SessionStore.Delete h key now q).1.heap h).sid = (q.heap h).sid ∧
    (∀ e, e ≠ h → (SessionStore.Delete h key now q).1.heap e = q.heap e) :=
  Delete_state (fun r => r.sessions = q.sessions ∧ r.list = q.list ∧
      (r.heap h).sid = (q.heap h).sid ∧ (∀ e, e ≠ h → r.heap e = q.heap e)) h key now q
    ⟨rfl, rfl, rfl, fun _ _ => rfl⟩ (fun value1 => write_detached hq now value1)

/-- A call on a handle whose sid is not registered writes at most the
attribute map of the handle. -/
theorem exec_onHandle [DecidableEq K] {q : Provider K V} {h : Ptr}
    (hq : q.sessions (q.heap h).sid = none) (c : Call K V) (hc : OnHandle h c) :
    (exec q c).sessions = q.sessions ∧ (exec q c).list = q.list ∧
    ((exec q c).heap h).sid = (q.heap h).sid ∧
    (∀ e, e ≠ h → (exec q c).heap e = q.heap e) := by
  cases c with
  | Set st k v now =>
    have hst : st = h := hc
    subst hst
    exact Set_detached hq k v now
  | Get st k now =>
    have hst : st = h := hc
    subst hst
    have hg : exec q (Call.Get st k now) = q := by
      show (SessionStore.Get st k now q).1 = q
      rw [Get_state, SessionUpdate_absent hq]
    rw [hg]
    exact ⟨rfl, rfl, rfl, fun _ _ => rfl⟩
  | Delete st k now =>
    have hst : st = h := hc
    subst hst
    exact Delete_detached hq k now
  | Init sid now => exact False.elim hc
  | Read sid => exact False.elim hc
  | Update sid now => exact False.elim hc
  | Destroy sid => exact False.elim hc
  | GC maxlifetime clock => exact False.elim hc

/-- A sequence of calls on a handle whose sid is not registered writes at most
the attribute map of the handle. -/
theorem run_onHandle [DecidableEq K] {h : Ptr} (cs : List (Call K V)) :
    ∀ q : Provider K V, q.sessions (q.heap h).sid = none → (∀ c ∈ cs, OnHandle h c) →
      (run q cs).sessions = q.sessions ∧ (run q cs).list = q.list ∧
      ((run q cs).heap h).sid = (q.heap h).sid ∧
      (∀ e, e ≠ h → (run q cs).heap e = q.heap e) := by
  induction cs with
  | nil => intro q _ _; exact ⟨rfl, rfl, rfl, fun _ _ => rfl⟩
  | cons c cs ih =>
    intro q hq hcs
    obtain ⟨h1, h2, h3, h4⟩ := exec_onHandle hq c (hcs c (List.mem_cons_self _ _))
    have hq1 : (exec q c).sessions ((exec q c).heap h).sid = none := by
      rw [h1, h3]; exact hq
    obtain ⟨g1, g2, g3, g4⟩ := ih (exec q c) hq1
      (fun d hd => hcs d (List.mem_cons_of_mem _ hd))
    exact ⟨g1.trans h1, g2.trans h2, g3.trans h3, fun e he => (g4 e he).trans (h4 e he)⟩

/-- The loop of `SessionGC` only reads and writes the map and the list. -/
theorem gcEvents_isAccess (maxlifetime : Int) (clock : Nat → Time) :
    ∀ (fuel i : Nat) (p : Provider K V),
      (gcEvents maxlifetime clock fuel i p).all Event.isAccess = true := by
  intro fuel
  induction fuel with
  | zero => intro i p; rfl
  | succ n ih =>
    intro i p
    rw [gcEvents]
    split
    · rfl
    · rename_i p1 _
      simp only [List.all_cons, Event.isAccess, Bool.true_and]
      exact ih (i + 1) p1

theorem allocated_run_pder [DecidableEq K] (cs : List (Call K V))
    (h : FreshInits pder cs) : Allocated (run pder cs) :=
  (bijection_run cs pder bijection_pder (fun _ he => absurd he (by simp [pder])) h).2

end FrameLemmas

/-! ## Facts about the concrete stores -/

section Concrete

theorem freshInits_traceMixed : FreshInits pder traceMixed :=
  ⟨rfl, trivial, rfl, trivial, trivial, trivial, rfl, trivial, trivial, trivial, trivial,
    trivial⟩

theorem clockMonotone_traceMixed : ClockMonotone traceMixed := by
  simp [ClockMonotone, traceMixed, Call.stamp, Key.hashable]

theorem bijection_storeOne : Bijection storeOne :=
  bijection_run_pder _ ⟨rfl, trivial⟩

theorem sorted_storeOne : SortedByTime storeOne :=
  (sortedByTime_iff _).2 (by decide)

theorem bijection_storeTwo : Bijection storeTwo :=
  bijection_run_pder _ ⟨rfl, rfl, trivial⟩

theorem sorted_storeTwo : SortedByTime storeTwo :=
  (sortedByTime_iff _).2 (by decide)

theorem bijection_storeThree : Bijection storeThree :=
  bijection_run_pder _ ⟨rfl, rfl, rfl, trivial⟩

theorem sorted_storeThree : SortedByTime storeThree :=
  (sortedByTime_iff _).2 (by decide)

theorem inInt64_storeThree :
    ∀ e ∈ storeThree.list, inInt64 (Unix (storeThree.heap e).timeAccessed + 2) := by
  decide

theorem bijection_storeAhead : Bijection storeAhead :=
  bijection_run_pder _ ⟨rfl, rfl, rfl, trivial⟩

theorem sorted_storeAhead : SortedByTime storeAhead :=
  (sortedByTime_iff _).2 (by decide)

theorem allocated_storeThree : Allocated storeThree :=
  allocated_run_pder _ ⟨rfl, rfl, rfl, trivial⟩

theorem onHandle_handleCalls : ∀ c ∈ handleCalls, OnHandle 1 c := by
  intro c hc
  simp only [handleCalls, List.mem_cons, List.mem_singleton, List.not_mem_nil, or_false] at hc
  rcases hc with rfl | rfl | rfl | rfl <;> rfl

end Concrete

/-! ## The claims -/

section Claims

variable {K V : Type}

/-- C1. Bijection invariant: in every store state reached from the empty store
by a sequence of `SessionInit`, `SessionRead`, `SessionUpdate`,
`SessionDestroy`, `SessionGC` and `Set`/`Get`/`Delete` calls in which
`SessionInit` is only called with a sid that is not a key of the `sessions`
map at that time, every key maps to a list element carrying that sid, every
list element is the map value of its own sid, and no two list elements carry
the same sid. -/
theorem C1_bijection_reachable [DecidableEq K] (cs : List (Call K V))
    (h : FreshInits pder cs) : Bijection (run pder cs) :=
  bijection_run_pder cs h

/-- C1 at the sequence `traceMixed`. -/
theorem C1_bijection_reachable_witness :
    FreshInits pder traceMixed ∧ Bijection (run pder traceMixed) :=
  ⟨freshInits_traceMixed, C1_bijection_reachable traceMixed freshInits_traceMixed⟩

/-- C2. Recency-order invariant: when the clock does not go backwards from one
call to the next, in every store state reached from the empty store by a
sequence of `SessionInit`, `SessionRead`, `SessionUpdate`, `SessionDestroy`,
`SessionGC` and `Set`/`Get`/`Delete` calls the list is sorted by
`timeAccessed`, non-increasing from front to back. -/
theorem C2_sorted_reachable [DecidableEq K] (cs : List (Call K V))
    (h : ClockMonotone cs) : SortedByTime (run pder cs) := by
  unfold ClockMonotone at h
  have key : ∃ t1, Stamped t1 (run (pder : Provider K V) cs) := by
    cases hl : cs.filterMap Call.stamp with
    | nil =>
      refine stamped_run cs 0 pder (stamped_pder 0) ?_
      rw [hl]; exact List.Chain.nil
    | cons a l =>
      refine stamped_run cs a pder (stamped_pder a) ?_
      rw [hl] at h ⊢
      exact List.chain_cons.2 ⟨le_refl a, h⟩
  obtain ⟨t1, ht1⟩ := key
  exact (sortedByTime_iff _).2 ht1.2.2.1

/-- C2 at the sequence `traceMixed`. -/
theorem C2_sorted_reachable_witness :
    ClockMonotone traceMixed ∧ SortedByTime (run pder traceMixed) :=
  ⟨clockMonotone_traceMixed, C2_sorted_reachable traceMixed clockMonotone_traceMixed⟩

/-- C3, as amended. GC postcondition: for a store that satisfies the bijection
invariant and is sorted by `timeAccessed`, and for `maxlifetime` and `now`
such that no sum `timeAccessed.Unix() + maxlifetime` of a list entry leaves the
range of `int64`, after `SessionGC(maxlifetime)` at a clock reading `now` the
list is the old list restricted to the entries with
`timeAccessed.Unix() + maxlifetime >= now.Unix()` (in the old order), no
`SessionStore` is written, the `sessions` map is the old map restricted to the
entries that are left, and the bijection still holds.  An entry with
`timeAccessed.Unix() + maxlifetime = now.Unix()` is retained; when
`maxlifetime` is not negative, of three entries at `now - maxlifetime - 1`,
`now - maxlifetime + 1` and `now` seconds the latter two are left; and with
`maxlifetime = 0`, in a store with no entry later than the second of `now`,
exactly the entries accessed in the second of `now` are left. -/
theorem C3_gc_postcondition (p : Provider K V) (maxlifetime : Int) (now : Time)
    (hb : Bijection p) (hs : SortedByTime p)
    (ho : ∀ e ∈ p.list, inInt64 (Unix (p.heap e).timeAccessed + maxlifetime)) :
    (SessionGC maxlifetime (fun _ => now) p).list =
        p.list.filter (fun e =>
          decide (Unix (p.heap e).timeAccessed + maxlifetime ≥ Unix now)) ∧
    (SessionGC maxlifetime (fun _ => now) p).heap = p.heap ∧
    (∀ sid e, (SessionGC maxlifetime (fun _ => now) p).sessions sid = some e ↔
        (e ∈ (SessionGC maxlifetime (fun _ => now) p).list ∧ p.sessions sid = some e)) ∧
    Bijection (SessionGC maxlifetime (fun _ => now) p) ∧
    (∀ e ∈ p.list, Unix (p.heap e).timeAccessed + maxlifetime = Unix now →
        e ∈ (SessionGC maxlifetime (fun _ => now) p).list) ∧
    (0 ≤ maxlifetime → ∀ a b c, List.Perm p.list [a, b, c] →
        Unix (p.heap a).timeAccessed = Unix now - maxlifetime - 1 →
        Unix (p.heap b).timeAccessed = Unix now - maxlifetime + 1 →
        Unix (p.heap c).timeAccessed = Unix now →
        ∀ e, e ∈ (SessionGC maxlifetime (fun _ => now) p).list ↔ (e = b ∨ e = c)) ∧
    (maxlifetime = 0 → (∀ e ∈ p.list, Unix (p.heap e).timeAccessed ≤ Unix now) →
        ∀ e, e ∈ (SessionGC maxlifetime (fun _ => now) p).list ↔
          (e ∈ p.list ∧ Unix (p.heap e).timeAccessed = Unix now)) := by
  obtain ⟨hheap, _, hlist⟩ := SessionGC_const maxlifetime now p hb.nodup
  have hbq : Bijection (SessionGC maxlifetime (fun _ => now) p) :=
    bijection_SessionGC hb maxlifetime _
  have hexp : ∀ e ∈ p.list, (expired maxlifetime now (p.heap e) ↔
      Unix (p.heap e).timeAccessed + maxlifetime < Unix now) := by
    intro e he
    unfold expired
    rw [wrapInt64_of_inInt64 (ho e he)]
  have hpw : p.list.Pairwise (fun a b =>
      decide (expired maxlifetime now (p.heap a)) = true →
        decide (expired maxlifetime now (p.heap b)) = true) := by
    have h1 : p.list.Pairwise (fun a b =>
        (p.heap a).timeAccessed ≥ (p.heap b).timeAccessed) :=
      List.pairwise_map.1 ((sortedByTime_iff p).1 hs)
    refine List.Pairwise.imp_of_mem ?_ h1
    intro a b ha hb2 hab hea
    rw [decide_eq_true_iff] at hea ⊢
    rw [hexp a ha] at hea
    rw [hexp b hb2]
    have := Unix_mono hab
    omega
  have hfilter : (SessionGC maxlifetime (fun _ => now) p).list =
      p.list.filter (fun e =>
        decide (Unix (p.heap e).timeAccessed + maxlifetime ≥ Unix now)) := by
    rw [hlist, rdropWhile_eq_filter _ _ hpw]
    refine List.filter_congr ?_
    intro e he
    by_cases hx : Unix (p.heap e).timeAccessed + maxlifetime < Unix now
    · have h1 : expired maxlifetime now (p.heap e) := (hexp e he).2 hx
      have h2 : ¬ Unix (p.heap e).timeAccessed + maxlifetime ≥ Unix now := by omega
      simp [h1, h2]
    · have h1 : ¬ expired maxlifetime now (p.heap e) := fun h => hx ((hexp e he).1 h)
      have h2 : Unix (p.heap e).timeAccessed + maxlifetime ≥ Unix now := by omega
      simp [h1, h2]
  have hmem : ∀ e, e ∈ (SessionGC maxlifetime (fun _ => now) p).list ↔
      (e ∈ p.list ∧ Unix (p.heap e).timeAccessed + maxlifetime ≥ Unix now) := by
    intro e
    rw [hfilter, List.mem_filter, decide_eq_true_iff]
  refine ⟨hfilter, hheap, ?_, hbq, ?_, ?_, ?_⟩
  · intro sid e
    constructor
    · intro hq
      obtain ⟨hm, hsid⟩ := hbq.1 sid e hq
      refine ⟨hm, ?_⟩
      rw [hheap] at hsid
      have := hb.2.1 e ((hmem e).1 hm).1
      rw [hsid] at this
      exact this
    · rintro ⟨hm, hp⟩
      have hsid := (hb.1 sid e hp).2
      have := hbq.2.1 e hm
      rw [hheap, hsid] at this
      exact this
  · intro e he heq
    exact (hmem e).2 ⟨he, by omega⟩
  · intro hnn a b c hperm ha hb2 hc e
    rw [hmem, hperm.mem_iff]
    simp only [List.mem_cons, List.mem_singleton, List.not_mem_nil, or_false]
    constructor
    · rintro ⟨hm, hl⟩
      rcases hm with rfl | rfl | rfl
      · omega
      · exact Or.inl rfl
      · exact Or.inr rfl
    · rintro (rfl | rfl)
      · exact ⟨Or.inr (Or.inl rfl), by omega⟩
      · exact ⟨Or.inr (Or.inr rfl), by omega⟩
  · intro h0 hle e
    rw [hmem]
    constructor
    · rintro ⟨hm, hl⟩
      exact ⟨hm, by have := hle e hm; omega⟩
    · rintro ⟨hm, hl⟩
      exact ⟨hm, by omega⟩

/-- C3 at `storeThree` with `maxlifetime = 2` in second 10: the entries of
seconds 10 and 9 are left, the entry of second 7 is swept. -/
theorem C3_gc_postcondition_witness :
    Bijection storeThree ∧ SortedByTime storeThree ∧
    (∀ e ∈ storeThree.list, inInt64 (Unix (storeThree.heap e).timeAccessed + 2)) ∧
    (SessionGC 2 (fun _ => 10000000000) storeThree).list =
      storeThree.list.filter (fun e =>
        decide (Unix (storeThree.heap e).timeAccessed + 2 ≥ Unix 10000000000)) :=
  ⟨bijection_storeThree, sorted_storeThree, inInt64_storeThree,
    (C3_gc_postcondition storeThree 2 10000000000 bijection_storeThree sorted_storeThree
      inInt64_storeThree).1⟩

/-- C3 as stated fails.  (1) With `maxlifetime` the largest `int64` the sum of
the entry of second 1 wraps around: the entry is swept in second 2 although
`1 + maxlifetime >= 2` as integers.  (2) With the sum read as the `int64` sum,
in `storeTwo` the front entry (second 1) is expired and the back entry
(second 0) is not; the sweep stops at the back entry and keeps both.
(3) With `maxlifetime = -5` in second 10 the entries at `now - maxlifetime - 1`,
`now - maxlifetime + 1` and `now` leave only the second one.  (4) With
`maxlifetime = 0` in second 0 the entry of second 1 is left, and it was not
accessed in the second of `now`. -/
theorem C3_gc_postcondition_counterexample :
    (Bijection storeOne ∧ SortedByTime storeOne ∧
      (SessionGC maxInt64 (fun _ => 2000000000) storeOne).list = [] ∧
      storeOne.list.filter (fun e =>
        decide (Unix (storeOne.heap e).timeAccessed + maxInt64 ≥ Unix 2000000000)) = [0]) ∧
    (Bijection storeTwo ∧ SortedByTime storeTwo ∧
      (SessionGC maxInt64 (fun _ => 2000000000) storeTwo).list = [1, 0] ∧
      storeTwo.list.filter (fun e =>
        decide (¬ expired maxInt64 2000000000 (storeTwo.heap e))) = [0]) ∧
    (Bijection storeAhead ∧ SortedByTime storeAhead ∧
      storeAhead.list = [2, 1, 0] ∧
      Unix (storeAhead.heap 1).timeAccessed = Unix 10000000000 - (-5) - 1 ∧
      Unix (storeAhead.heap 2).timeAccessed = Unix 10000000000 - (-5) + 1 ∧
      Unix (storeAhead.heap 0).timeAccessed = Unix 10000000000 ∧
      (SessionGC (-5) (fun _ => 10000000000) storeAhead).list = [2]) ∧
    (Bijection storeOne ∧ SortedByTime storeOne ∧
      (SessionGC 0 (fun _ => 0) storeOne).list = [0] ∧
      Unix (storeOne.heap 0).timeAccessed ≠ Unix 0) :=
  ⟨⟨bijection_storeOne, sorted_storeOne, by decide, by decide⟩,
    ⟨bijection_storeTwo, sorted_storeTwo, by decide, by decide⟩,
    ⟨bijection_storeAhead, sorted_storeAhead, by decide, by decide, by decide, by decide,
      by decide⟩,
    ⟨bijection_storeOne, sorted_storeOne, by decide, by decide⟩⟩

/-- C4. Read fails iff absent and never creates or touches: `SessionRead(sid)`
returns the error `DoesNotExist` and a nil session exactly when `sid` is not a
key of the `sessions` map, otherwise it returns the session registered under
`sid` and a nil error; in both cases the store (map, list and every
`SessionStore`) is the one it was called on. -/
theorem C4_read (p : Provider K V) (sid : String) :
    (((SessionRead sid p).2.2 = some DoesNotExist ∧ (SessionRead sid p).2.1 = none) ↔
        p.sessions sid = none) ∧
    (∀ e, p.sessions sid = some e → (SessionRead sid p).2 = (some e, none)) ∧
    (SessionRead sid p).1 = p := by
  unfold SessionRead
  cases h : p.sessions sid with
  | none => simp
  | some e => simp

/-- C5. Create then Read: on every store `SessionInit(sid)` returns a nil
error and a session whose `SessionID()` is `sid` and whose attribute map is
empty, so that `Get` returns nil for every key on which it returns (every key
that can be hashed, a NaN key included); the entry is at the front of the
list, in front of the old list, with `timeAccessed` the clock reading of the
call; and a `SessionRead(sid)` that follows returns this entry and a nil
error. -/
theorem C5_init_then_read (p : Provider K V) (sid : String) (now : Time) :
    (SessionInit sid now p).2.2 = none ∧
    SessionStore.SessionID (SessionInit sid now p).2.1 (SessionInit sid now p).1 = sid ∧
    ((SessionInit sid now p).1.heap (SessionInit sid now p).2.1).value = (fun _ => none) ∧
    (∀ (key : Key K) (now1 : Time), key.hashable = true →
      (SessionStore.Get (SessionInit sid now p).2.1 key now1 (SessionInit sid now p).1).2
        = .returns none) ∧
    (SessionInit sid now p).1.list = (SessionInit sid now p).2.1 :: p.list ∧
    ((SessionInit sid now p).1.heap (SessionInit sid now p).2.1).timeAccessed = now ∧
    SessionRead sid (SessionInit sid now p).1 =
      ((SessionInit sid now p).1, some (SessionInit sid now p).2.1, none) := by
  refine ⟨rfl, ?_, ?_, ?_, rfl, ?_, ?_⟩
  · simp [SessionStore.SessionID, SessionInit]
  · simp [SessionInit]
  · intro key now1 hk
    cases key with
    | val k =>
      rw [Get_result]
      simp [SessionInit]
    | nan => exact Get_nan _ _ _
    | unhashable => cases hk
  · simp [SessionInit]
  · simp [SessionRead, SessionInit]

/-- C6, as amended. Attribute round trip: for every session handle, every
key of a comparable dynamic type that is equal to itself (`Key.val k`: not a
NaN, not a slice, map or function) and every value, `Set(k, v)` followed by
`Get(k)` returns `v`, a later `Set` on the key overwrites the earlier value,
`Delete(k)` followed by `Get(k)` returns nil whether or not the key was set,
`Set` and `Delete` return a nil error, `Get` returns, and `Get` of a key that
is not set returns nil. -/
theorem C6_attribute_round_trip [DecidableEq K] (p : Provider K V) (st : Ptr) (k : K) :
    (∀ (v : Option V) (now1 now2 : Time),
      (SessionStore.Get st (.val k) now2 (SessionStore.Set st (.val k) v now1 p).1).2
        = .returns v) ∧
    (∀ (v1 v2 : Option V) (now1 now2 now3 : Time),
      (SessionStore.Get st (.val k) now3
        (SessionStore.Set st (.val k) v2 now2
          (SessionStore.Set st (.val k) v1 now1 p).1).1).2 = .returns v2) ∧
    (∀ (now1 now2 : Time),
      (SessionStore.Get st (.val k) now2 (SessionStore.Delete st (.val k) now1 p).1).2
        = .returns none) ∧
    (∀ (v : Option V) (now1 : Time),
      (SessionStore.Set st (.val k) v now1 p).2 = .returns none) ∧
    (∀ (now1 : Time), (SessionStore.Delete st (.val k) now1 p).2 = .returns none) ∧
    (∀ (now1 : Time), ∃ r, (SessionStore.Get st (.val k) now1 p).2 = .returns r) ∧
    (∀ (now1 : Time), (p.heap st).value k = none →
      (SessionStore.Get st (.val k) now1 p).2 = .returns none) := by
  refine ⟨?_, ?_, ?_, fun _ _ => rfl, fun _ => rfl, ?_, ?_⟩
  · intro v now1 now2
    rw [Get_result, Set_value]; simp
  · intro v1 v2 now1 now2 now3
    rw [Get_result, Set_value]; simp
  · intro now1 now2
    rw [Get_result, Delete_value]; simp
  · intro now1
    exact ⟨_, Get_result st k now1 p⟩
  · intro now1 h
    rw [Get_result, h]

/-- C6 as stated fails, at the store with the one session `"a"` (handle 0).
With a NaN key `Set` returns a nil error and the `Get` that follows returns
nil, not the value 1 that was set.  With an unhashable key `Set`, `Get` and
`Delete` panic: they return neither a nil error nor a value. -/
theorem C6_attribute_round_trip_counterexample :
    (SessionStore.Set 0 Key.nan (some 1) 2000000000 storeOne).2 = Outcome.returns none ∧
    (SessionStore.Get 0 Key.nan 3000000000
      (SessionStore.Set 0 Key.nan (some 1) 2000000000 storeOne).1).2
        = Outcome.returns none ∧
    (SessionStore.Get 0 Key.nan 3000000000
      (SessionStore.Set 0 Key.nan (some 1) 2000000000 storeOne).1).2
        ≠ Outcome.returns (some 1) ∧
    (SessionStore.Set 0 Key.unhashable (some 1) 2000000000 storeOne).2 = Outcome.panics ∧
    (SessionStore.Get 0 Key.unhashable 2000000000 storeOne).2 = Outcome.panics ∧
    (SessionStore.Delete 0 Key.unhashable 2000000000 storeOne).2 = Outcome.panics :=
  ⟨rfl, rfl, by decide, rfl, rfl, rfl⟩

/-- C7. Touch postcondition: in a store with the bijection, when `sid` is
registered to the element `e`, after `SessionUpdate(sid)` the list is `e`
followed by the old list without `e`, the `timeAccessed` of `e` is the clock
reading and nothing else in memory and nothing in the `sessions` map has
changed; when `sid` is not registered the store is unchanged; the error is nil
in both cases.  Touching `B` and then `A`, both registered, leaves the element
of `A` first, directly followed by the element of `B` when `A` differs from
`B`. -/
theorem C7_touch (p : Provider K V) (sid : String) (now : Time) (hb : Bijection p) :
    (∀ e, p.sessions sid = some e →
        (SessionUpdate sid now p).1.list = e :: p.list.erase e ∧
        (SessionUpdate sid now p).1.heap e = { p.heap e with timeAccessed := now } ∧
        (∀ e1, e1 ≠ e → (SessionUpdate sid now p).1.heap e1 = p.heap e1) ∧
        (SessionUpdate sid now p).1.sessions = p.sessions) ∧
    (p.sessions sid = none → (SessionUpdate sid now p).1 = p) ∧
    (SessionUpdate sid now p).2 = none ∧
    (∀ (A B : String) (eA eB : Ptr) (nowA nowB : Time),
        p.sessions A = some eA → p.sessions B = some eB →
        (SessionUpdate A nowA (SessionUpdate B nowB p).1).1.list.head? = some eA ∧
        (A ≠ B → ∃ rest,
          (SessionUpdate A nowA (SessionUpdate B nowB p).1).1.list = eA :: eB :: rest)) := by
  refine ⟨?_, ?_, ?_, ?_⟩
  · intro e h
    rw [SessionUpdate_registered hb h now]
    refine ⟨rfl, ?_, ?_, rfl⟩
    · simp
    · intro e1 h1
      simp [Function.update_noteq h1]
  · intro h
    simp only [SessionUpdate, h]
  · unfold SessionUpdate
    split <;> rfl
  · intro A B eA eB nowA nowB hA hB
    have hb1 : Bijection (SessionUpdate B nowB p).1 := bijection_SessionUpdate hb B nowB
    have hA1 : (SessionUpdate B nowB p).1.sessions A = some eA := by
      rw [SessionUpdate_sessions]; exact hA
    rw [SessionUpdate_registered hb1 hA1 nowA]
    refine ⟨rfl, ?_⟩
    intro hAB
    have hne : eB ≠ eA := by
      intro heq
      have h1 := (hb.1 A eA hA).2
      have h2 := (hb.1 B eB hB).2
      rw [heq, h1] at h2
      exact hAB h2
    rw [SessionUpdate_registered hb hB nowB]
    refine ⟨(p.list.erase eB).erase eA, ?_⟩
    show eA :: (eB :: p.list.erase eB).erase eA = _
    rw [List.erase_cons_tail (by simpa using hne)]

/-- C7 at `storeThree`: touching `"a"`, the back element, moves it to the
front. -/
theorem C7_touch_witness :
    Bijection storeThree ∧
    (SessionUpdate "a" 11000000000 storeThree).1.list = 0 :: storeThree.list.erase 0 :=
  ⟨bijection_storeThree,
    ((C7_touch storeThree "a" 11000000000 bijection_storeThree).1 0 rfl).1⟩

/-- C8. Destroy postcondition: in a store with the bijection, after
`SessionDestroy(sid)` the sid is not a key of the `sessions` map, no list
element carries it, `SessionRead(sid)` returns `DoesNotExist`, every other key
maps to what it did, the list is the old list without the elements carrying
`sid`, no `SessionStore` has been written, and the error is nil. -/
theorem C8_destroy (p : Provider K V) (sid : String) (hb : Bijection p) :
    (SessionDestroy sid p).1.sessions sid = none ∧
    (∀ e ∈ (SessionDestroy sid p).1.list, ((SessionDestroy sid p).1.heap e).sid ≠ sid) ∧
    SessionRead sid (SessionDestroy sid p).1 =
      ((SessionDestroy sid p).1, none, some DoesNotExist) ∧
    (∀ k, k ≠ sid → (SessionDestroy sid p).1.sessions k = p.sessions k) ∧
    (SessionDestroy sid p).1.list = p.list.filter (fun e => decide ((p.heap e).sid ≠ sid)) ∧
    (SessionDestroy sid p).1.heap = p.heap ∧
    (SessionDestroy sid p).2 = none := by
  have hsess : (SessionDestroy sid p).1.sessions sid = none := by
    unfold SessionDestroy
    split
    · simp
    · rename_i h; exact h
  have hheap : (SessionDestroy sid p).1.heap = p.heap := by
    unfold SessionDestroy; split <;> rfl
  have hlist : (SessionDestroy sid p).1.list =
      p.list.filter (fun e => decide ((p.heap e).sid ≠ sid)) := by
    unfold SessionDestroy
    split
    · rename_i element hel
      show p.list.erase element = _
      rw [List.Nodup.erase_eq_filter hb.nodup]
      refine List.filter_congr ?_
      intro e he
      have h1 := (hb.1 sid element hel).2
      have h2 := hb.2.1 e he
      by_cases hee : e = element
      · subst hee; simp [h1]
      · have : (p.heap e).sid ≠ sid := by
          intro heq
          rw [heq, hel] at h2
          exact hee (Option.some.inj h2).symm
        simp [hee, this]
    · rename_i hnone
      show p.list = _
      symm
      refine List.filter_eq_self.2 ?_
      intro e he
      have h2 := hb.2.1 e he
      have : (p.heap e).sid ≠ sid := by
        intro heq
        rw [heq, hnone] at h2
        cases h2
      simp [this]
  refine ⟨hsess, ?_, ?_, ?_, hlist, hheap, ?_⟩
  · intro e he
    rw [hlist, List.mem_filter] at he
    rw [hheap]
    simpa using he.2
  · simp only [SessionRead, hsess]
  · intro k hk
    unfold SessionDestroy
    split
    · simp [Function.update_noteq hk]
    · rfl
  · unfold SessionDestroy
    split <;> rfl

/-- C8 at `storeThree`: after `SessionDestroy("b")` the key `"b"` is gone and
the list is the old one without the element of `"b"`. -/
theorem C8_destroy_witness :
    Bijection storeThree ∧
    (SessionDestroy "b" storeThree).1.sessions "b" = none ∧
    (SessionDestroy "b" storeThree).1.list =
      storeThree.list.filter (fun e => decide ((storeThree.heap e).sid ≠ "b")) :=
  ⟨bijection_storeThree, (C8_destroy storeThree "b" bijection_storeThree).1,
    (C8_destroy storeThree "b" bijection_storeThree).2.2.2.2.1⟩

/-- C9. Destroy is idempotent and never errors: on every store
`SessionDestroy(sid)` returns nil, leaves the store unchanged when `sid` is not
registered, and a second `SessionDestroy(sid)` returns nil and the state the
first one has left. -/
theorem C9_destroy_idempotent (p : Provider K V) (sid : String) :
    (SessionDestroy sid p).2 = none ∧
    (p.sessions sid = none → (SessionDestroy sid p).1 = p) ∧
    SessionDestroy sid (SessionDestroy sid p).1 = ((SessionDestroy sid p).1, none) := by
  have hsess : (SessionDestroy sid p).1.sessions sid = none := by
    unfold SessionDestroy
    split
    · simp
    · rename_i h; exact h
  refine ⟨?_, ?_, ?_⟩
  · unfold SessionDestroy
    split <;> rfl
  · intro h
    simp only [SessionDestroy, h]
  · generalize (SessionDestroy sid p).1 = q at hsess
    simp only [SessionDestroy, hsess]

/-- C10. GC with nothing expired is a no-op: when no entry of the list
satisfies the test `timeAccessed.Unix() + maxlifetime < now.Unix()` of the
sweep, `SessionGC(maxlifetime)` returns the store it was called on. -/
theorem C10_gc_noop (p : Provider K V) (maxlifetime : Int) (now : Time)
    (h : ∀ e ∈ p.list, ¬ expired maxlifetime now (p.heap e)) :
    SessionGC maxlifetime (fun _ => now) p = p := by
  have hstep : gcStep maxlifetime now p = none := by
    unfold gcStep
    split
    · rfl
    · rename_i element hb
      rw [if_neg (h element (List.mem_of_getLast?_eq_some hb))]
  simp only [SessionGC, gcLoop, hstep, Option.getD_some]

/-- C10 at `storeThree` with `maxlifetime = 5` in second 10, and at the empty
store. -/
theorem C10_gc_noop_witness :
    (∀ e ∈ storeThree.list, ¬ expired 5 10000000000 (storeThree.heap e)) ∧
    SessionGC 5 (fun _ => 10000000000) storeThree = storeThree ∧
    SessionGC 5 (fun _ => 10000000000) (pder : Provider Nat Nat) = pder :=
  ⟨by decide, C10_gc_noop storeThree 5 10000000000 (by decide),
    C10_gc_noop pder 5 10000000000 (fun _ he => absurd he (List.not_mem_nil _))⟩

/-- C11. Duplicate Create orphans a list node: in a store with the bijection
(and with every list element below the allocation counter), when `sid` is
registered to the element `old`, `SessionInit(sid)` returns a nil error and a
new session `new` with an empty attribute map; the list is `new` followed by
the old list, one element longer, and exactly `new` and `old` carry `sid`; the
`sessions` map has the keys it had, maps `sid` to `new` and every other key as
before; `old` is still in the list but is the map value of no key; and the
bijection does not hold any more. -/
theorem C11_duplicate_init (p q : Provider K V) (sid : String) (now : Time)
    (old new : Ptr) (err : Option SessionError)
    (hb : Bijection p) (ha : Allocated p) (hreg : p.sessions sid = some old)
    (hinit : SessionInit sid now p = (q, new, err)) :
    err = none ∧ new ∉ p.list ∧ (q.heap new).sid = sid ∧
    (q.heap new).value = (fun _ => none) ∧
    q.list = new :: p.list ∧ q.list.length = p.list.length + 1 ∧
    q.list.filter (fun e => decide ((q.heap e).sid = sid)) = [new, old] ∧
    (∀ k, (q.sessions k).isSome = (p.sessions k).isSome) ∧
    q.sessions sid = some new ∧
    (∀ k, k ≠ sid → q.sessions k = p.sessions k) ∧
    old ∈ q.list ∧ (∀ k, q.sessions k ≠ some old) ∧
    ¬ Bijection q := by
  simp only [SessionInit, PushFront, Prod.mk.injEq] at hinit
  obtain ⟨rfl, rfl, rfl⟩ := hinit
  have hfresh : p.next ∉ p.list := fun hm => lt_irrefl _ (ha _ hm)
  have hold : old ∈ p.list := (hb.1 sid old hreg).1
  have hne : old ≠ p.next := fun h => hfresh (h ▸ hold)
  have hheap : ∀ e ∈ p.list, ∀ s : SessionStore K V,
      Function.update p.heap p.next s e = p.heap e :=
    fun e he s => Function.update_noteq (by rintro rfl; exact hfresh he) _ _
  have hsess : ∀ k, Function.update p.sessions sid (some p.next) k ≠ some old := by
    intro k hk
    by_cases hks : k = sid
    · subst hks
      rw [Function.update_same] at hk
      exact hne (Option.some.inj hk).symm
    · rw [Function.update_noteq hks] at hk
      have h1 := (hb.1 k old hk).2
      have h2 := (hb.1 sid old hreg).2
      exact hks (h1.symm.trans h2)
  refine ⟨rfl, hfresh, ?_, ?_, rfl, ?_, ?_, ?_, ?_, ?_, ?_, hsess, ?_⟩
  · simp
  · simp
  · simp
  · simp only
    rw [List.filter_cons_of_pos (by simp)]
    congr 1
    have hcongr : p.list.filter (fun e => decide ((Function.update p.heap p.next
        { sid := sid, timeAccessed := now, value := fun _ => none } e).sid = sid))
        = p.list.filter (fun e => decide ((p.heap e).sid = sid)) :=
      List.filter_congr (fun e he => by rw [hheap e he])
    rw [hcongr]
    refine filter_unique _ old p.list hb.nodup hold ?_
    intro e he
    rw [decide_eq_true_iff]
    constructor
    · intro hs
      have := hb.2.1 e he
      rw [hs, hreg] at this
      exact (Option.some.inj this).symm
    · rintro rfl
      exact (hb.1 sid e hreg).2
  · intro k
    by_cases hks : k = sid
    · subst hks; simp [hreg]
    · simp [Function.update_noteq hks]
  · simp
  · intro k hk
    simp [Function.update_noteq hk]
  · exact List.mem_cons_of_mem _ hold
  · intro hbq
    have := hbq.2.1 old (List.mem_cons_of_mem _ hold)
    exact hsess _ this

/-- C11 at `storeThree`: a second `SessionInit("a")` leaves the elements 3 and 0
carrying `"a"` and breaks the bijection. -/
theorem C11_duplicate_init_witness :
    Bijection storeThree ∧ Allocated storeThree ∧ storeThree.sessions "a" = some 0 ∧
    (SessionInit "a" 11000000000 storeThree).1.list.filter
      (fun e => decide (((SessionInit "a" 11000000000 storeThree).1.heap e).sid = "a"))
        = [3, 0] ∧
    ¬ Bijection (SessionInit "a" 11000000000 storeThree).1 :=
  ⟨bijection_storeThree, allocated_storeThree, rfl,
    (C11_duplicate_init storeThree (SessionInit "a" 11000000000 storeThree).1 "a"
      11000000000 0 3 none bijection_storeThree allocated_storeThree rfl rfl).2.2.2.2.2.2.1,
    (C11_duplicate_init storeThree (SessionInit "a" 11000000000 storeThree).1 "a"
      11000000000 0 3 none bijection_storeThree allocated_storeThree rfl
      rfl).2.2.2.2.2.2.2.2.2.2.2.2⟩

/-- C14. Every attribute access touches: in a store with the bijection, for a
handle whose sid is registered to the handle's own entry, after `Set(k, v)`,
after `Get(k)` and after `Delete(k)` the list is that entry followed by the old
list without it, the `timeAccessed` of the entry is the clock reading of the
call, and the `sessions` map is unchanged.  This holds for every key on which
the call returns (for `Set` and `Delete` every key that can be hashed, a NaN
key included); `Get` touches before it looks the key up, so for every key. -/
theorem C14_access_touches [DecidableEq K] (p : Provider K V) (st : Ptr) (key : Key K)
    (v : Option V) (now : Time) (hb : Bijection p)
    (hreg : p.sessions (p.heap st).sid = some st) :
    (key.hashable = true →
      (SessionStore.Set st key v now p).1.list = st :: p.list.erase st ∧
      ((SessionStore.Set st key v now p).1.heap st).timeAccessed = now ∧
      (SessionStore.Set st key v now p).1.sessions = p.sessions) ∧
    ((SessionStore.Get st key now p).1.list = st :: p.list.erase st ∧
      ((SessionStore.Get st key now p).1.heap st).timeAccessed = now ∧
      (SessionStore.Get st key now p).1.sessions = p.sessions) ∧
    (key.hashable = true →
      (SessionStore.Delete st key now p).1.list = st :: p.list.erase st ∧
      ((SessionStore.Delete st key now p).1.heap st).timeAccessed = now ∧
      (SessionStore.Delete st key now p).1.sessions = p.sessions) := by
  have hwrite : ∀ value1 : K → Option (Option V),
      ((SessionUpdate (p.heap st).sid now { p with
          heap := Function.update p.heap st { p.heap st with value := value1 } }).1.list
        = st :: p.list.erase st) ∧
      ((SessionUpdate (p.heap st).sid now { p with
          heap := Function.update p.heap st { p.heap st with value := value1 } }).1.heap
        st).timeAccessed = now ∧
      (SessionUpdate (p.heap st).sid now { p with
          heap := Function.update p.heap st { p.heap st with value := value1 } }).1.sessions
        = p.sessions := by
    intro value1
    rw [SessionUpdate_registered (bijection_setValue hb st value1) hreg now]
    exact ⟨rfl, by simp, rfl⟩
  refine ⟨?_, ?_, ?_⟩
  · intro hk
    cases key with
    | val k =>
      simp only [SessionStore.Set, mapassign, Function.update_same]
      exact hwrite _
    | nan =>
      simp only [SessionStore.Set, mapassign, Function.update_same]
      exact hwrite _
    | unhashable => cases hk
  · rw [Get_state, SessionUpdate_registered hb hreg now]
    exact ⟨rfl, by simp, rfl⟩
  · intro hk
    cases key with
    | val k =>
      simp only [SessionStore.Delete, mapdelete, Function.update_same]
      exact hwrite _
    | nan =>
      simp only [SessionStore.Delete, mapdelete, Function.update_same]
      exact hwrite _
    | unhashable => cases hk

/-- C14 at `storeThree`: a `Set` on the handle of `"a"`, the back element, moves
it to the front. -/
theorem C14_access_touches_witness :
    Bijection storeThree ∧ storeThree.sessions (storeThree.heap 0).sid = some 0 ∧
    (SessionStore.Set 0 (.val 7) (some 1) 11000000000 storeThree).1.list
      = 0 :: storeThree.list.erase 0 :=
  ⟨bijection_storeThree, rfl,
    ((C14_access_touches storeThree 0 (.val 7) (some 1) 11000000000 bijection_storeThree
      rfl).1 rfl).1⟩

/-- C15. GC removes exactly the maximal expired suffix: for every store, sorted
or not (no element linked twice), `SessionGC(maxlifetime)` under a clock that
reads `now` splits the old list into the list it leaves and the run of elements
it removes at the back; every removed element satisfies the test
`timeAccessed.Unix() + maxlifetime < now.Unix()` of the sweep and the last
element that is left does not; no `SessionStore` is written; and an element in
front of an element that fails the test is left, expired or not. -/
theorem C15_gc_maximal_suffix (p : Provider K V) (maxlifetime : Int) (now : Time)
    (hnd : p.list.Nodup) :
    (∃ removed,
      p.list = (SessionGC maxlifetime (fun _ => now) p).list ++ removed ∧
      (∀ e ∈ removed, expired maxlifetime now (p.heap e)) ∧
      (∀ hne : (SessionGC maxlifetime (fun _ => now) p).list ≠ [],
        ¬ expired maxlifetime now
          (p.heap ((SessionGC maxlifetime (fun _ => now) p).list.getLast hne)))) ∧
    (SessionGC maxlifetime (fun _ => now) p).heap = p.heap ∧
    (∀ l1 e l2 x, p.list = l1 ++ e :: l2 → x ∈ l2 →
      ¬ expired maxlifetime now (p.heap x) →
      e ∈ (SessionGC maxlifetime (fun _ => now) p).list) := by
  obtain ⟨hheap, _, hlist⟩ := SessionGC_const maxlifetime now p hnd
  have hsplit := rdropWhile_append_rtakeWhile
    (fun e => decide (expired maxlifetime now (p.heap e))) p.list
  rw [← hlist] at hsplit
  have hrem : ∀ e ∈ p.list.rtakeWhile (fun e => decide (expired maxlifetime now (p.heap e))),
      expired maxlifetime now (p.heap e) := by
    intro e he
    have := List.mem_rtakeWhile_imp he
    simpa using this
  refine ⟨⟨_, hsplit.symm, hrem, ?_⟩, hheap, ?_⟩
  · intro hne
    have hne2 : p.list.rdropWhile (fun e => decide (expired maxlifetime now (p.heap e))) ≠ [] := by
      rw [← hlist]; exact hne
    have := List.rdropWhile_last_not (fun e => decide (expired maxlifetime now (p.heap e)))
      p.list hne2
    simp only [← hlist] at this
    simpa using this
  · intro l1 e l2 x hl hx hlive
    rw [← hsplit] at hl
    rcases List.append_eq_append_iff.1 hl with ⟨a, _, h2⟩ | ⟨c, h1, h2⟩
    · exact absurd (hrem x (by rw [h2]; simp [hx])) hlive
    · cases c with
      | nil =>
        simp only [List.nil_append] at h2
        exact absurd (hrem x (by rw [← h2]; exact List.mem_cons_of_mem _ hx)) hlive
      | cons y ys =>
        simp only [List.cons_append, List.cons.injEq] at h2
        rw [h1, h2.1]
        simp

/-- C15 at `storeUnsorted` with `maxlifetime = 5` in second 12: the front
element (second 0) is expired and is left, because the back element (second
10) is not expired. -/
theorem C15_gc_maximal_suffix_witness :
    storeUnsorted.list.Nodup ∧
    expired 5 12000000000 (storeUnsorted.heap 1) ∧
    1 ∈ (SessionGC 5 (fun _ => 12000000000) storeUnsorted).list :=
  ⟨by decide, by decide,
    (C15_gc_maximal_suffix storeUnsorted 5 12000000000 (by decide)).2.2 [] 1 [0] 0 rfl
      (List.mem_singleton_self 0) (by decide)⟩

/-- C16. GC terminates within the list size: for every store, `maxlifetime` and
clock there is a number `k` of removals, at most the length `n` of the list,
such that the loop of `SessionGC` has not left after `k` passes and has left,
in the state `SessionGC` returns, after `k + 1` passes (so after at most
`n + 1`); the list that is left is `k` elements shorter; and every pass that
does not leave the loop shortens the list by one element. -/
theorem C16_gc_terminates (p : Provider K V) (maxlifetime : Int) (clock : Nat → Time) :
    ∃ k, k ≤ p.list.length ∧
      (∀ fuel, fuel ≤ k → gcLoop maxlifetime clock fuel 0 p = none) ∧
      (∀ fuel, k < fuel →
        gcLoop maxlifetime clock fuel 0 p = some (SessionGC maxlifetime clock p)) ∧
      (SessionGC maxlifetime clock p).list.length + k = p.list.length ∧
      (∀ now p1, gcStep maxlifetime now p = some p1 →
        p1.list.length + 1 = p.list.length) := by
  obtain ⟨k, q, hk, hq, hnone, hsome⟩ :=
    gcLoop_passes maxlifetime clock p.list.length 0 p rfl
  have hgc : SessionGC maxlifetime clock p = q := by
    have h1 := gcLoop_eq_SessionGC maxlifetime clock p
    rw [hsome (p.list.length + 1) (by omega)] at h1
    exact (Option.some.inj h1).symm
  refine ⟨k, hk, hnone, ?_, ?_, fun _ _ hs => gcStep_length hs⟩
  · intro fuel hf; rw [hgc]; exact hsome fuel hf
  · rw [hgc]; exact hq

/-- C17. GC can unregister a live session after a duplicate Create: from the
empty store, after `SessionInit(sid)` at `t0`, `SessionInit(sid)` once more at
`t1` and `SessionGC(maxlifetime)` at a time `now` at which the first entry is
expired and the second is not, the second entry is the only element of the
list, it carries `sid` and is not expired, but `sid` is not a key of the
`sessions` map: `SessionRead(sid)` returns `DoesNotExist`, and
`SessionUpdate(sid)` and `SessionDestroy(sid)` return the store as it is. -/
theorem C17_gc_unregisters_live [DecidableEq K] (sid : String) (maxlifetime : Int)
    (t0 t1 now : Time)
    (h0 : wrapInt64 (Unix t0 + maxlifetime) < Unix now)
    (h1 : ¬ wrapInt64 (Unix t1 + maxlifetime) < Unix now) :
    (run (pder : Provider K V) (duplicateThenGC sid maxlifetime t0 t1 now)).list = [1] ∧
    ((run (pder : Provider K V) (duplicateThenGC sid maxlifetime t0 t1 now)).heap 1).sid
      = sid ∧
    ¬ expired maxlifetime now
      ((run (pder : Provider K V) (duplicateThenGC sid maxlifetime t0 t1 now)).heap 1) ∧
    (run (pder : Provider K V) (duplicateThenGC sid maxlifetime t0 t1 now)).sessions sid
      = none ∧
    (SessionRead sid
      (run (pder : Provider K V) (duplicateThenGC sid maxlifetime t0 t1 now))).2
        = (none, some DoesNotExist) ∧
    (∀ t, SessionUpdate sid t
      (run (pder : Provider K V) (duplicateThenGC sid maxlifetime t0 t1 now))
        = (run (pder : Provider K V) (duplicateThenGC sid maxlifetime t0 t1 now), none)) ∧
    SessionDestroy sid
      (run (pder : Provider K V) (duplicateThenGC sid maxlifetime t0 t1 now))
        = (run (pder : Provider K V) (duplicateThenGC sid maxlifetime t0 t1 now), none) := by
  have hrun : run (pder : Provider K V) (duplicateThenGC sid maxlifetime t0 t1 now) =
      { heap := Function.update (Function.update (pder : Provider K V).heap 0
            { sid := sid, timeAccessed := t0, value := fun _ => none }) 1
            { sid := sid, timeAccessed := t1, value := fun _ => none }
        next := 2
        sessions := Function.update (Function.update (Function.update
            (pder : Provider K V).sessions sid (some 0)) sid (some 1)) sid none
        list := [1] } := by
    simp [duplicateThenGC, run, exec, SessionInit, SessionGC, gcLoop, gcStep, Back, Remove,
      PushFront, pder, expired, h0, h1]
  rw [hrun]
  refine ⟨rfl, ?_, ?_, ?_, ?_, ?_, ?_⟩
  · simp
  · simp [expired, h1]
  · simp
  · simp [SessionRead]
  · intro t; simp [SessionUpdate]
  · simp [SessionDestroy]

/-- C17 with `maxlifetime = 5`: created in second 0, created again in second 10,
swept in second 12. -/
theorem C17_gc_unregisters_live_witness :
    wrapInt64 (Unix 0 + 5) < Unix 12000000000 ∧
    ¬ wrapInt64 (Unix 10000000000 + 5) < Unix 12000000000 ∧
    (run (pder : Provider Nat Nat)
      (duplicateThenGC "s" 5 0 10000000000 12000000000)).list = [1] ∧
    (run (pder : Provider Nat Nat)
      (duplicateThenGC "s" 5 0 10000000000 12000000000)).sessions "s" = none :=
  ⟨by decide, by decide,
    (C17_gc_unregisters_live "s" 5 0 10000000000 12000000000 (by decide) (by decide)).1,
    (C17_gc_unregisters_live "s" 5 0 10000000000 12000000000 (by decide)
      (by decide)).2.2.2.1⟩

/-- C18. Attribute frame: in every store with every list element below the
allocation counter, with or without the bijection, `Set(k, v)` and `Delete(k)`
on a handle, whatever the key (also a NaN or an unhashable one), leave the
value of every other key of that session, the attribute maps of all other
sessions and all sids unchanged; `SessionUpdate` and `Get` write no attribute
map, `SessionRead` writes nothing, `SessionInit` writes no
`SessionStore` allocated before, so none of the list; `SessionDestroy` and
`SessionGC` write no `SessionStore` at all and only unlink elements. -/
theorem C18_attribute_frame [DecidableEq K] (p : Provider K V) (ha : Allocated p) :
    (∀ (st : Ptr) (key : Key K) (v : Option V) (now : Time),
      (∀ k1, key ≠ .val k1 →
        ((SessionStore.Set st key v now p).1.heap st).value k1 = (p.heap st).value k1) ∧
      (∀ e, e ≠ st →
        ((SessionStore.Set st key v now p).1.heap e).value = (p.heap e).value) ∧
      (∀ e, ((SessionStore.Set st key v now p).1.heap e).sid = (p.heap e).sid)) ∧
    (∀ (st : Ptr) (key : Key K) (now : Time),
      (∀ k1, key ≠ .val k1 →
        ((SessionStore.Delete st key now p).1.heap st).value k1 = (p.heap st).value k1) ∧
      (∀ e, e ≠ st →
        ((SessionStore.Delete st key now p).1.heap e).value = (p.heap e).value) ∧
      (∀ e, ((SessionStore.Delete st key now p).1.heap e).sid = (p.heap e).sid)) ∧
    (∀ (sid : String) (now : Time) (e : Ptr),
      ((SessionUpdate sid now p).1.heap e).value = (p.heap e).value) ∧
    (∀ sid : String, (SessionRead sid p).1 = p) ∧
    (∀ (st : Ptr) (key : Key K) (now : Time) (e : Ptr),
      ((SessionStore.Get st key now p).1.heap e).value = (p.heap e).value) ∧
    (∀ (sid : String) (now : Time) (e : Ptr), e < p.next →
      (SessionInit sid now p).1.heap e = p.heap e) ∧
    (∀ (sid : String) (now : Time), p.sessions sid = none →
      ∀ e ∈ p.list, (SessionInit sid now p).1.heap e = p.heap e) ∧
    (∀ sid : String, (SessionDestroy sid p).1.heap = p.heap ∧
      ∀ e ∈ (SessionDestroy sid p).1.list, e ∈ p.list) ∧
    (∀ (maxlifetime : Int) (clock : Nat → Time),
      (SessionGC maxlifetime clock p).heap = p.heap ∧
      ∀ e ∈ (SessionGC maxlifetime clock p).list, e ∈ p.list) := by
  refine ⟨?_, ?_, ?_, ?_, ?_, ?_, ?_, ?_, ?_⟩
  · intro st key v now
    refine ⟨?_, (Set_frame st key v now p).1, (Set_frame st key v now p).2⟩
    intro k1 hk
    exact Set_value_other st key v now p k1 (fun k hkey heq => hk (heq ▸ hkey))
  · intro st key now
    refine ⟨?_, (Delete_frame st key now p).1, (Delete_frame st key now p).2⟩
    intro k1 hk
    exact Delete_value_other st key now p k1 (fun k hkey heq => hk (heq ▸ hkey))
  · intro sid now e; exact SessionUpdate_value sid now p e
  · intro sid; unfold SessionRead; split <;> rfl
  · intro st k now e; rw [Get_state]; exact SessionUpdate_value _ now p e
  · intro sid now e he
    have hne : e ≠ p.next := Nat.ne_of_lt he
    simp [SessionInit, Function.update_noteq hne]
  · intro sid now _ e he
    have hne : e ≠ p.next := Nat.ne_of_lt (ha e he)
    simp [SessionInit, Function.update_noteq hne]
  · intro sid
    refine ⟨SessionDestroy_heap sid p, ?_⟩
    unfold SessionDestroy
    split
    · intro e he; exact List.mem_of_mem_erase he
    · intro e he; exact he
  · intro maxlifetime clock; exact SessionGC_heap maxlifetime clock p

/-- C18 at `storeThree`: a `Set` on the handle of `"a"` leaves the attribute map
of `"b"` as it is. -/
theorem C18_attribute_frame_witness :
    Allocated storeThree ∧
    ((SessionStore.Set 0 (.val 7) (some 1) 11000000000 storeThree).1.heap 1).value
      = (storeThree.heap 1).value :=
  ⟨allocated_storeThree,
    ((C18_attribute_frame storeThree allocated_storeThree).1
      0 (.val 7) (some 1) 11000000000).2.1 1 (by decide)⟩

/-- C19. A destroyed session is not resurrected through its handle: in a store
with the bijection, for a sid registered to the handle `h`, after
`SessionDestroy(sid)`, and likewise after a `SessionGC` that has removed `h`,
any sequence of `Set`, `Get` and `Delete` calls on `h`, with whatever keys,
leaves the `sessions` map and the list as they were, `h` stays out of the list
and `SessionRead(sid)` returns `DoesNotExist`; and after any such sequence
`Set(k, v)` followed by `Get(k)` on the handle returns `v`, as it does on a
registered session, for every key that is equal to itself. -/
theorem C19_no_resurrection [DecidableEq K] (p : Provider K V) (sid : String) (h : Ptr)
    (cs : List (Call K V)) (hb : Bijection p) (hreg : p.sessions sid = some h)
    (hcs : ∀ c ∈ cs, OnHandle h c) :
    ((run (SessionDestroy sid p).1 cs).sessions = (SessionDestroy sid p).1.sessions ∧
      (run (SessionDestroy sid p).1 cs).list = (SessionDestroy sid p).1.list ∧
      h ∉ (run (SessionDestroy sid p).1 cs).list ∧
      (SessionRead sid (run (SessionDestroy sid p).1 cs)).2 = (none, some DoesNotExist)) ∧
    (∀ (maxlifetime : Int) (clock : Nat → Time),
      h ∉ (SessionGC maxlifetime clock p).list →
      (run (SessionGC maxlifetime clock p) cs).sessions
        = (SessionGC maxlifetime clock p).sessions ∧
      (run (SessionGC maxlifetime clock p) cs).list = (SessionGC maxlifetime clock p).list ∧
      (SessionRead sid (run (SessionGC maxlifetime clock p) cs)).2
        = (none, some DoesNotExist)) ∧
    (∀ (q : Provider K V) (k : K) (v : Option V) (now1 now2 : Time),
      (SessionStore.Get h (.val k) now2
        (SessionStore.Set h (.val k) v now1 (run q cs)).1).2 = .returns v) := by
  have hsid : (p.heap h).sid = sid := (hb.1 sid h hreg).2
  refine ⟨?_, ?_, ?_⟩
  · have hds : (SessionDestroy sid p).1.sessions = Function.update p.sessions sid none := by
      simp only [SessionDestroy, hreg]
    have hdl : (SessionDestroy sid p).1.list = p.list.erase h := by
      simp only [SessionDestroy, hreg, Remove]
    have hq : (SessionDestroy sid p).1.sessions (((SessionDestroy sid p).1).heap h).sid
        = none := by
      rw [SessionDestroy_heap, hds, hsid, Function.update_same]
    obtain ⟨h1, h2, _, _⟩ := run_onHandle cs _ hq hcs
    refine ⟨h1, h2, ?_, ?_⟩
    · rw [h2, hdl]
      exact fun hx => ((List.Nodup.mem_erase_iff hb.nodup).1 hx).1 rfl
    · have : (run (SessionDestroy sid p).1 cs).sessions sid = none := by
        rw [h1, hds, Function.update_same]
      simp only [SessionRead, this]
  · intro maxlifetime clock hgone
    have hbq := bijection_SessionGC hb maxlifetime clock
    obtain ⟨hheap, hsub⟩ := SessionGC_heap maxlifetime clock p
    have hnone : (SessionGC maxlifetime clock p).sessions sid = none := by
      cases hx : (SessionGC maxlifetime clock p).sessions sid with
      | none => rfl
      | some e =>
        exfalso
        obtain ⟨he, hes⟩ := hbq.1 sid e hx
        rw [hheap] at hes
        have := hb.2.1 e (hsub e he)
        rw [hes, hreg] at this
        exact hgone ((Option.some.inj this) ▸ he)
    have hq : (SessionGC maxlifetime clock p).sessions
        ((SessionGC maxlifetime clock p).heap h).sid = none := by
      rw [hheap, hsid]; exact hnone
    obtain ⟨h1, h2, _, _⟩ := run_onHandle cs _ hq hcs
    refine ⟨h1, h2, ?_⟩
    have : (run (SessionGC maxlifetime clock p) cs).sessions sid = none := by
      rw [h1]; exact hnone
    simp only [SessionRead, this]
  · intro q k v now1 now2
    rw [Get_result, Set_value]; simp

/-- C19 at `storeThree`: after `SessionDestroy("b")` the calls `handleCalls` on
the handle of `"b"` leave the list as it was. -/
theorem C19_no_resurrection_witness :
    Bijection storeThree ∧ storeThree.sessions "b" = some 1 ∧
    (∀ c ∈ handleCalls, OnHandle 1 c) ∧
    (run (SessionDestroy "b" storeThree).1 handleCalls).list
      = (SessionDestroy "b" storeThree).1.list :=
  ⟨bijection_storeThree, rfl, onHandle_handleCalls,
    (C19_no_resurrection storeThree "b" 1 handleCalls bijection_storeThree rfl
      onHandle_handleCalls).1.2.1⟩

/-- C12, on the code. `SessionInit`, `SessionUpdate` and `SessionGC` take the
mutex first, release it last and touch the map and the list only in between;
`SessionRead` and `SessionDestroy` never take it: `SessionRead` looks the sid
up, and `SessionDestroy` of a registered sid deletes from the map and unlinks
from the list, without the mutex. -/
theorem C12_lock_discipline (p : Provider K V) (sid : String) (maxlifetime : Int)
    (clock : Nat → Time) :
    HoldsLock SessionInit.events = true ∧
    HoldsLock (SessionUpdate.events sid p) = true ∧
    HoldsLock (SessionGC.events maxlifetime clock p) = true ∧
    HoldsLock SessionRead.events = false ∧
    HoldsLock (SessionDestroy.events sid p) = false ∧
    Event.Lock ∉ SessionDestroy.events sid p ∧
    (∀ e, p.sessions sid = some e →
      SessionDestroy.events sid p = [.readSessions, .writeSessions, .writeList]) := by
  refine ⟨rfl, ?_, ?_, rfl, ?_, ?_, ?_⟩
  · unfold SessionUpdate.events
    split <;> rfl
  · simp only [SessionGC.events, HoldsLock, List.getLast?_concat, List.dropLast_concat,
      gcEvents_isAccess, beq_self_eq_true, Bool.and_self]
  · unfold SessionDestroy.events
    split <;> rfl
  · unfold SessionDestroy.events
    split <;> simp
  · intro e he
    simp only [SessionDestroy.events, he]

end Claims

end Memory

namespace Session

/-- C13. Register panics iff the name is taken or the provider is nil: for
every registry, name and provider, `Register(name, provide)` panics exactly
when `provide` is nil or `name` is a key of the registry, and then the registry
is as it was; otherwise it returns and the registry maps `name` to `provide`
and every other name as before. -/
theorem C13_register {P : Type} (name : String) (provide : Option P)
    (provides : String → Option P) :
    ((Register name provide provides).2 ≠ none ↔
      (provide = none ∨ provides name ≠ none)) ∧
    ((Register name provide provides).2 ≠ none →
      (Register name provide provides).1 = provides) ∧
    (∀ pr, provide = some pr → provides name = none →
      (Register name provide provides).2 = none ∧
      (Register name provide provides).1 name = some pr ∧
      ∀ other, other ≠ name → (Register name provide provides).1 other = provides other) := by
  unfold Register
  cases provide with
  | none => simp
  | some pr =>
    cases h : provides name with
    | none =>
      simp only [ne_eq, not_true_eq_false, reduceCtorEq, or_self, false_implies,
        Option.some.injEq, forall_eq', true_and, Function.update_same, true_implies, iff_self]
      intro other ho
      exact Function.update_noteq ho _ _
    | some pr0 => simp

end Session
